import Mathlib

/-!
Verification of the google/unsmear leap-second smearing library.

The development shallowly embeds the C++ sources (src/unsmear/unsmear.h,
src/unsmear/format.cc) in Lean.  Conventions:

- absl::Time is modelled as an exact rational count of seconds since the Unix
  epoch, wrapped with the two absl infinities (type TimeQ below).  TaiTime and
  GpsTime are likewise rational second counts since their own epochs, wrapped
  with infinities.  The table construction and conversion code of the library
  only ever produces times on a sub-nanosecond grid, so exact rationals refine
  the absl fixed-point representation; where the C++ calls absl floating-point
  helpers (FDivDuration, Duration * double) the model computes the exact value,
  per the real-arithmetic formulas of the specification.
- The civil (proleptic Gregorian) calendar used by absl::ToTM and
  absl::FromDateTime is external to the repository and is modelled from the
  specification: civilOfDays walks the calendar day by day, so that the
  successor of a day is a definitional fact, and daysFromCivil is the standard
  era-based day count (the two are proved inverse).
- The saturating fixed-point absl::Duration itself (also external to the
  repository) is modelled separately as SatDuration for the claims about
  saturation.
-/

namespace Unsmear

/-- Proleptic Gregorian civil date: year, month (1..12), day of month. -/
structure Civil where
  y : Int
  m : Int
  d : Int
deriving DecidableEq

/-- Gregorian leap-year rule, as used by the civil calendar (absl civil time). -/
def isLeapYear (y : Int) : Bool :=
  y % 4 = 0 && (y % 100 ≠ 0 || y % 400 = 0)

/-- Number of days in month m of year y (months 1..12). -/
def monthLength (y m : Int) : Int :=
  if m = 2 then (if isLeapYear y then 29 else 28)
  else if m = 4 ∨ m = 6 ∨ m = 9 ∨ m = 11 then 30
  else 31

/-- The civil day after c. -/
def nextDay (c : Civil) : Civil :=
  if c.d < monthLength c.y c.m then ⟨c.y, c.m, c.d + 1⟩
  else if c.m < 12 then ⟨c.y, c.m + 1, 1⟩
  else ⟨c.y + 1, 1, 1⟩

/-- The civil day before c. -/
def prevDay (c : Civil) : Civil :=
  if 1 < c.d then ⟨c.y, c.m, c.d - 1⟩
  else if 1 < c.m then ⟨c.y, c.m - 1, monthLength c.y (c.m - 1)⟩
  else ⟨c.y - 1, 12, 31⟩

/-- Walk n civil days forward from c (tail-recursive, strict in c). -/
def civilFwdAux : Nat → Civil → Civil
  | 0, c => c
  | n + 1, ⟨y, m, d⟩ => civilFwdAux n (nextDay ⟨y, m, d⟩)

/-- Walk n civil days backward from c (tail-recursive, strict in c). -/
def civilBwdAux : Nat → Civil → Civil
  | 0, c => c
  | n + 1, ⟨y, m, d⟩ => civilBwdAux n (prevDay ⟨y, m, d⟩)

/-- Civil date n days after 1970-01-01, for n : ℕ. -/
def civilFwd (n : Nat) : Civil := civilFwdAux n ⟨1970, 1, 1⟩

/-- Civil date n days before 1970-01-01, for n : ℕ. -/
def civilBwd (n : Nat) : Civil := civilBwdAux n ⟨1970, 1, 1⟩

/-- Civil date of the day numbered n, where day 0 is 1970-01-01 (the Unix
epoch day).  Modelled from the spec: this is the proleptic Gregorian calendar
of absl civil time, which is external to the repository. -/
def civilOfDays (n : Int) : Civil :=
  if 0 ≤ n then civilFwd n.toNat else civilBwd (-n).toNat

/-- Day number (day 0 = 1970-01-01) of a civil date, by the standard era-based
formula (as in absl civil time / Hinnant's algorithm).  Modelled from the
spec: absl::FromDateTime is external to the repository.  The era division is
a floor division, which for the C++ source is written as a truncated division
with a negative-operand adjustment. -/
def daysFromCivil (c : Civil) : Int :=
  let ys := if c.m ≤ 2 then c.y - 1 else c.y
  let era := ys / 400
  let yoe := ys - era * 400
  let mp := if 2 < c.m then c.m - 3 else c.m + 9
  let doy := (153 * mp + 2) / 5 + c.d - 1
  let doe := yoe * 365 + yoe / 4 - yoe / 100 + doy
  era * 146097 + doe - 719468

/-- Broken-down time in the style of struct tm, as produced by absl::ToTM:
tm_year counts years since 1900 and tm_mon counts months from 0. -/
structure Tm where
  tm_year : Int
  tm_mon : Int
  tm_mday : Int
  tm_hour : Int
deriving DecidableEq

/-- Day number containing the time q (rational seconds since the Unix epoch). -/
def dayNumOf (q : ℚ) : Int := ⌊q / 86400⌋

/-- Broken-down UTC time of q, as absl::ToTM(q, UTCTimeZone) produces it. -/
def toTM (q : ℚ) : Tm :=
  let n := dayNumOf q
  let c := civilOfDays n
  ⟨c.y - 1900, c.m - 1, c.d, ⌊(q - (n : ℚ) * 86400) / 3600⌋⟩

/-- Noon UTC of the civil date (y, m, d), as absl::FromDateTime(y, m, d, 12, 0, 0)
computes it; the civil fields are normalized (a day beyond the month's end
rolls into the following month), which the era-based day count performs
automatically. -/
def fromDateTimeNoon (y m d : Int) : ℚ :=
  ((daysFromCivil ⟨y, m, d⟩ * 86400 + 43200 : Int) : ℚ)

/-- A time with the two absl infinities.  Used for absl::Time (seconds since
the Unix epoch), TaiTime (seconds since 1958-01-01 TAI) and GpsTime (seconds
since the GPS epoch) alike. -/
inductive TimeQ
  | negInf
  | fin (q : ℚ)
  | posInf
deriving DecidableEq

/-- From unsmear.h: kSmearRadius is 12 hours, ModernUtcEpoch() is Unix second
63072000 (1972-01-01 00:00:00 UTC). -/
def modernUtcEpoch : ℚ := 63072000

/-- TaiModernUtcEpoch() = TaiEpoch() + 5113 * Hours(24) + Seconds(10). -/
def taiModernUtcEpoch : ℚ := 5113 * 86400 + 10

/-- TaiOffset of the GPS timescale: Seconds(8040 * 86400 + 19), the TAI time
of the GPS epoch. -/
def taiOffsetGps : ℚ := 8040 * 86400 + 19

/-- The earliest accepted leap table end JDN (unsmear.cc kMinJdn). -/
def kMinJdn : Int := 2441347

/-- The latest accepted leap table end JDN (unsmear.cc kMaxJdn). -/
def kMaxJdn : Int := 5373483

/-- JdnToTime: UnixEpoch + 12 h + (jdn - 2440588) * 24 h. -/
def jdnToTime (jdn : Int) : ℚ := 43200 + ((jdn : ℚ) - 2440588) * 86400

/-- ToJdnInt from unsmear.cc, valid for times at UTC noon: truncates
(t - 12 h) to Unix seconds, divides by 86400 with C truncation, and shifts
by the JDN of the Unix epoch day. -/
def toJdnInt (t : ℚ) : Int :=
  let secs : Int := if 0 ≤ t - 43200 then ⌊t - 43200⌋ else -⌊-(t - 43200)⌋
  (if 0 ≤ secs then secs / 86400 else -((-secs) / 86400)) + 2440588

/-- internal::LeapTableEntry: UTC time of a smear boundary, the TAI time of
the same instant, and the smear direction for times before this point. -/
structure LeapTableEntry where
  utc : ℚ
  tai : ℚ
  smear : Int
deriving DecidableEq

instance : Inhabited LeapTableEntry := ⟨⟨0, 0, 0⟩⟩

/-- A LeapTable: a latest-first list of leap table entries. -/
structure LeapTable where
  entries : List LeapTableEntry
deriving DecidableEq

/-- LeapTableProto: the serialized catalog (positive leap JDNs, negative leap
JDNs, end JDN). -/
structure LeapTableProto where
  positive_leaps : List Int
  negative_leaps : List Int
  end_jdn : Int
deriving DecidableEq

/-- LeapTable::expiration(): the UTC time of the first entry. -/
def LeapTable.expiration (lt : LeapTable) : ℚ := lt.entries.headI.utc

/-- The TAI time of the first (expiration) entry. -/
def LeapTable.expirationTai (lt : LeapTable) : ℚ := lt.entries.headI.tai

/-- The two unsorted entries contributed by one leap at the given JDN: the
start of the smear at the leap day's noon (smear 0) and the end of the smear
at the following noon (smear s). -/
def leapPairEntries (s : Int) (jdn : Int) : List LeapTableEntry :=
  [⟨jdnToTime jdn, 0, 0⟩, ⟨jdnToTime (jdn + 1), 0, s⟩]

/-- The unsorted entry list built by NewLeapTableFromProto before sorting:
the expiration entry, two entries per leap, and the modern UTC epoch entry.
TAI fields other than the epoch entry's are value-initialized to zero and
filled in later. -/
def unsortedEntries (proto : LeapTableProto) : List LeapTableEntry :=
  ⟨jdnToTime (proto.end_jdn + 1), 0, 0⟩ ::
    (proto.positive_leaps.flatMap (leapPairEntries 1) ++
     proto.negative_leaps.flatMap (leapPairEntries (-1)) ++
     [⟨modernUtcEpoch, taiModernUtcEpoch, 0⟩])

/-- Insert an entry into a list sorted by descending UTC.  The C++ uses
std::sort with comparator a.utc > b.utc, whose order on tied keys is
unspecified; this deterministic insertion realizes one such order (ties are
rejected by the later validation in every order, so the choice is immaterial). -/
def insertEntry (e : LeapTableEntry) : List LeapTableEntry → List LeapTableEntry
  | [] => [e]
  | b :: bs => if b.utc < e.utc then e :: b :: bs else b :: insertEntry e bs

/-- Sort entries by descending UTC (insertion sort). -/
def sortEntries : List LeapTableEntry → List LeapTableEntry
  | [] => []
  | e :: es => insertEntry e (sortEntries es)

/-- The validation and TAI fill loop of NewLeapTableFromProto, iterating from
the oldest entry forward.  The input list is in ascending (oldest-first)
order with prev the oldest entry (whose TAI is already known); the output is
the ascending list with every TAI filled in.  Mirrors the C++ loop
for (i = size-2; i >= 0; --i): reject a pair of entries at the same UTC time,
reject a smear boundary in the same tm_mon month as the entry below it, and
otherwise set tai from the entry below via the chain rule. -/
def fillTai (prev : LeapTableEntry) : List LeapTableEntry → Option (List LeapTableEntry)
  | [] => some [prev]
  | e :: rest =>
    if e.utc = prev.utc then none
    else if e.smear ≠ 0 ∧ (toTM e.utc).tm_mon = (toTM prev.utc).tm_mon then none
    else
      match fillTai ⟨e.utc, prev.tai + (e.utc - prev.utc) + (e.smear : ℚ), e.smear⟩ rest with
      | none => none
      | some l => some (prev :: l)

/-- The tail of NewLeapTableFromProto after sorting: the front must be the
expiration with smear 0, the back must not precede the modern UTC epoch, and
the fill loop must succeed. -/
def buildFromSorted (expiration : ℚ) (sorted : List LeapTableEntry) : Option LeapTable :=
  match sorted with
  | [] => none
  | front :: _ =>
    if front.utc ≠ expiration ∨ front.smear ≠ 0 then none
    else if (sorted.getLastD front).utc < modernUtcEpoch then none
    else
      match sorted.reverse with
      | [] => none
      | oldest :: older =>
        match fillTai oldest older with
        | none => none
        | some asc => some ⟨asc.reverse⟩

/-- NewLeapTableFromProto: validate the catalog and construct the leap table,
or return none. -/
def newLeapTableFromProto (proto : LeapTableProto) : Option LeapTable :=
  if proto.end_jdn < kMinJdn ∨ kMaxJdn < proto.end_jdn then none
  else if (toTM (jdnToTime (proto.end_jdn + 1) + 86400)).tm_mday ≠ 1 then none
  else if proto.positive_leaps.any (fun j => decide (j < kMinJdn) || decide (kMaxJdn < j)) then none
  else if proto.negative_leaps.any (fun j => decide (j < kMinJdn) || decide (kMaxJdn < j)) then none
  else buildFromSorted (jdnToTime (proto.end_jdn + 1)) (sortEntries (unsortedEntries proto))

/-- LeapTable::ToProto: walk the entries from oldest to newest (excluding the
expiration entry), emitting for each smear boundary the JDN of the previous
day (the leap day itself); end_jdn is the JDN of the day before the
expiration. -/
def toProto (lt : LeapTable) : LeapTableProto :=
  let rest := (lt.entries.drop 1).reverse
  { positive_leaps := rest.filterMap (fun e => if e.smear = 1 then some (toJdnInt e.utc - 1) else none)
    negative_leaps := rest.filterMap (fun e => if e.smear = -1 then some (toJdnInt e.utc - 1) else none)
    end_jdn := toJdnInt lt.entries.headI.utc - 1 }

/-- LeapTable::operator==: elementwise equality of entries. -/
def leapTableEq (a b : LeapTable) : Bool := decide (a.entries = b.entries)

/-- Interpolate(entry, TaiTime) -> absl::Time: map a TAI time in the segment
below e to smeared UTC.  The C++ computes the fraction s with the
double-valued FDivDuration and scales a duration by it; the model computes
the same quantity exactly. -/
def interpolateTime (e : LeapTableEntry) (tai : ℚ) : ℚ :=
  let d := e.tai - tai
  let t := e.utc - d
  if e.smear ≠ 0 then t + d / (86400 + (e.smear : ℚ)) * (e.smear : ℚ) else t

/-- Interpolate(entry, absl::Time) -> TaiTime: map a smeared UTC time in the
segment below e to TAI; exact-arithmetic model of the double computation. -/
def interpolateTai (e : LeapTableEntry) (utc : ℚ) : ℚ :=
  let d := e.utc - utc
  let t := e.tai - d
  if e.smear ≠ 0 then t - d / 86400 * (e.smear : ℚ) else t

/-- IsJustBeforeMonthEnd from unsmear.cc: true if t is within twelve hours
before the end of the month.  Translated literally, including the leap-year
test applied to tm_year (years since 1900) rather than the calendar year. -/
def isJustBeforeMonthEnd (t : Tm) : Bool :=
  if t.tm_hour < 12 then false
  else if t.tm_mon = 0 then decide (t.tm_mday = 31)
  else if t.tm_mon = 1 then
    if t.tm_year % 4 = 0 ∧ (t.tm_year % 100 ≠ 0 ∨ t.tm_year % 400 = 0) then decide (t.tm_mday = 29)
    else decide (t.tm_mday = 28)
  else if t.tm_mon = 2 then decide (t.tm_mday = 31)
  else if t.tm_mon = 3 then decide (t.tm_mday = 30)
  else if t.tm_mon = 4 then decide (t.tm_mday = 31)
  else if t.tm_mon = 5 then decide (t.tm_mday = 30)
  else if t.tm_mon = 6 then decide (t.tm_mday = 31)
  else if t.tm_mon = 7 then decide (t.tm_mday = 31)
  else if t.tm_mon = 8 then decide (t.tm_mday = 30)
  else if t.tm_mon = 9 then decide (t.tm_mday = 31)
  else if t.tm_mon = 10 then decide (t.tm_mday = 30)
  else if t.tm_mon = 11 then decide (t.tm_mday = 31)
  else false

/-- Advance from unsmear.cc: extend a leap table entry to a hypothetical
boundary past t, once assuming every intervening month-end inserted a
negative leap second and once assuming a positive one. -/
def advance (e : LeapTableEntry) (t : ℚ) : LeapTableEntry × LeapTableEntry :=
  let etm := toTM e.utc
  let ttm := toTM t
  let leaps := (ttm.tm_year - etm.tm_year) * 12 + (ttm.tm_mon - etm.tm_mon)
  let year := ttm.tm_year + 1900
  let month := ttm.tm_mon + 1
  let day := ttm.tm_mday
  if isJustBeforeMonthEnd ttm then
    let leaps2 := leaps + 1
    let u := fromDateTimeNoon (if month = 12 then year + 1 else year)
      (if month = 12 then 1 else month + 1) 1
    (⟨u, e.tai + (u - e.utc) - (leaps2 : ℚ), -1⟩,
     ⟨u, e.tai + (u - e.utc) + (leaps2 : ℚ), 1⟩)
  else if ttm.tm_mday = 1 ∧ ttm.tm_hour < 12 then
    let u := fromDateTimeNoon year month day
    (⟨u, e.tai + (u - e.utc) - (leaps : ℚ), -1⟩,
     ⟨u, e.tai + (u - e.utc) + (leaps : ℚ), 1⟩)
  else
    let u := fromDateTimeNoon year month (day + 1)
    (⟨u, e.tai + (u - e.utc) - (leaps : ℚ), 0⟩,
     ⟨u, e.tai + (u - e.utc) + (leaps : ℚ), 0⟩)

/-- The segment-search loop of FutureProofUnsmear: find the first entry at or
before utc and interpolate in the segment above it; none if the scan runs
past the smear epoch. -/
def unsmearLoop (utc : ℚ) : LeapTableEntry → List LeapTableEntry → Option ℚ
  | _, [] => none
  | prev, b :: rest =>
    if b.utc ≤ utc then some (interpolateTai prev utc) else unsmearLoop utc b rest

/-- LeapTable::FutureProofUnsmear. -/
def futureProofUnsmear (lt : LeapTable) (utc : TimeQ) : TimeQ × TimeQ :=
  match utc with
  | .posInf => (.posInf, .posInf)
  | .negInf => (.negInf, .negInf)
  | .fin q =>
    match lt.entries with
    | [] => (.negInf, .posInf)
    | front :: rest =>
      if q ≤ front.utc then
        match unsmearLoop q front rest with
        | none => (.negInf, .posInf)
        | some v => (.fin v, .fin v)
      else
        let adv := advance front q
        (.fin (interpolateTai adv.1 q), .fin (interpolateTai adv.2 q))

/-- LeapTable::Unsmear: definite answer only when the future-proof interval
is a point. -/
def unsmear (lt : LeapTable) (utc : TimeQ) : Option TimeQ :=
  let i := futureProofUnsmear lt utc
  if i.1 ≠ i.2 then none else some i.1

/-- The segment-search loop of FutureProofSmear, by TAI bounds. -/
def smearLoop (tai : ℚ) : LeapTableEntry → List LeapTableEntry → Option ℚ
  | _, [] => none
  | prev, b :: rest =>
    if b.tai ≤ tai then some (interpolateTime prev tai) else smearLoop tai b rest

/-- LeapTable::FutureProofSmear for a timescale whose epoch is off seconds
after the TAI epoch (off = 0 for TaiTime, taiOffsetGps for GpsTime).  A
finite time before its own timescale's epoch cannot be converted. -/
def futureProofSmearAt (off : ℚ) (lt : LeapTable) (t : TimeQ) : TimeQ × TimeQ :=
  match t with
  | .posInf => (.posInf, .posInf)
  | .negInf => (.negInf, .negInf)
  | .fin q =>
    if q < 0 then (.negInf, .posInf)
    else
      let tai := q + off
      match lt.entries with
      | [] => (.negInf, .posInf)
      | front :: rest =>
        if tai ≤ front.tai then
          match smearLoop tai front rest with
          | none => (.negInf, .posInf)
          | some v => (.fin v, .fin v)
        else
          let adv := advance front (front.utc + (tai - front.tai))
          (.fin (interpolateTime adv.2 tai), .fin (interpolateTime adv.1 tai))

/-- FutureProofSmear specialized to TaiTime. -/
def futureProofSmearTai (lt : LeapTable) (t : TimeQ) : TimeQ × TimeQ :=
  futureProofSmearAt 0 lt t

/-- FutureProofSmear specialized to GpsTime. -/
def futureProofSmearGps (lt : LeapTable) (t : TimeQ) : TimeQ × TimeQ :=
  futureProofSmearAt taiOffsetGps lt t

/-- LeapTable::Smear for TaiTime input. -/
def smearTai (lt : LeapTable) (t : TimeQ) : Option TimeQ :=
  let i := futureProofSmearTai lt t
  if i.1 ≠ i.2 then none else some i.1

/-- LeapTable::Smear for GpsTime input. -/
def smearGps (lt : LeapTable) (t : TimeQ) : Option TimeQ :=
  let i := futureProofSmearGps lt t
  if i.1 ≠ i.2 then none else some i.1

/-! ### Calendar lemmas -/

/-- Well-formed civil date: month in 1..12 and day within the month. -/
def Civil.WF (c : Civil) : Prop :=
  1 ≤ c.m ∧ c.m ≤ 12 ∧ 1 ≤ c.d ∧ c.d ≤ monthLength c.y c.m

theorem monthLength_ge_28 (y m : Int) : 28 ≤ monthLength y m := by
  unfold monthLength
  split <;> [skip; split] <;> [split; skip; skip] <;> omega

theorem nextDay_WF {c : Civil} (h : c.WF) : (nextDay c).WF := by
  obtain ⟨h1, h2, h3, h4⟩ := h
  unfold nextDay
  split_ifs with hA hB
  · exact ⟨h1, h2, show 1 ≤ c.d + 1 by omega, show c.d + 1 ≤ monthLength c.y c.m by omega⟩
  · refine ⟨show 1 ≤ c.m + 1 by omega, show c.m + 1 ≤ 12 by omega, le_refl 1, ?_⟩
    show (1 : Int) ≤ monthLength c.y (c.m + 1)
    have := monthLength_ge_28 c.y (c.m + 1)
    omega
  · refine ⟨le_refl 1, show (1 : Int) ≤ 12 by omega, le_refl 1, ?_⟩
    show (1 : Int) ≤ monthLength (c.y + 1) 1
    have := monthLength_ge_28 (c.y + 1) 1
    omega

theorem civilFwdAux_nextDay (n : Nat) :
    ∀ c : Civil, civilFwdAux n (nextDay c) = nextDay (civilFwdAux n c) := by
  induction n with
  | zero => intro c; rfl
  | succ k ih =>
    intro c
    have h1 : civilFwdAux (k + 1) (nextDay c) = civilFwdAux k (nextDay (nextDay c)) := rfl
    have h2 : civilFwdAux (k + 1) c = civilFwdAux k (nextDay c) := rfl
    rw [h1, h2, ih]

theorem civilFwd_succ (n : Nat) : civilFwd (n + 1) = nextDay (civilFwd n) := by
  unfold civilFwd
  have h : civilFwdAux (n + 1) ⟨1970, 1, 1⟩ = civilFwdAux n (nextDay ⟨1970, 1, 1⟩) := rfl
  rw [h, civilFwdAux_nextDay]

theorem civilFwd_WF (n : Nat) : (civilFwd n).WF := by
  induction n with
  | zero => exact ⟨by decide, by decide, by decide, by decide⟩
  | succ k ih => rw [civilFwd_succ]; exact nextDay_WF ih

theorem civilOfDays_nonneg (n : Int) (h : 0 ≤ n) : civilOfDays n = civilFwd n.toNat := by
  unfold civilOfDays
  rw [if_pos h]

theorem civilOfDays_succ (n : Int) (h : 0 ≤ n) :
    civilOfDays (n + 1) = nextDay (civilOfDays n) := by
  rw [civilOfDays_nonneg n h, civilOfDays_nonneg (n + 1) (by omega)]
  have h2 : (n + 1).toNat = n.toNat + 1 := by omega
  rw [h2, civilFwd_succ]

theorem civilOfDays_WF (n : Int) (h : 0 ≤ n) : (civilOfDays n).WF := by
  rw [civilOfDays_nonneg n h]; exact civilFwd_WF n.toNat

theorem daysFromCivil_d_succ (y m d : Int) :
    daysFromCivil ⟨y, m, d + 1⟩ = daysFromCivil ⟨y, m, d⟩ + 1 := by
  simp only [daysFromCivil]
  omega

theorem daysFromCivil_nextDay {c : Civil} (h : c.WF) :
    daysFromCivil (nextDay c) = daysFromCivil c + 1 := by
  obtain ⟨y, m, d⟩ := c
  simp only [Civil.WF] at h
  obtain ⟨h1, h2, h3, h4⟩ := h
  simp only [nextDay]
  split_ifs with hA hB
  · exact daysFromCivil_d_succ y m d
  · have hd : d = monthLength y m := by omega
    clear hA h3 h4
    interval_cases m <;>
      norm_num [monthLength, isLeapYear] at hd <;>
      norm_num [daysFromCivil] <;>
      first
        | (split at hd <;> omega)
        | omega
  · have hm : m = 12 := by omega
    subst hm
    have hd : d = monthLength y 12 := by omega
    norm_num [monthLength] at hd
    norm_num [daysFromCivil]
    omega

theorem daysFromCivil_civilFwd (n : Nat) : daysFromCivil (civilFwd n) = n := by
  induction n with
  | zero => decide
  | succ k ih =>
    rw [civilFwd_succ, daysFromCivil_nextDay (civilFwd_WF k), ih]
    omega

theorem daysFromCivil_civilOfDays (n : Int) (h : 0 ≤ n) :
    daysFromCivil (civilOfDays n) = n := by
  rw [civilOfDays_nonneg n h, daysFromCivil_civilFwd]
  omega

/-! ### Time arithmetic lemmas -/

theorem dayNumOf_int_add (n : Int) (r : ℚ) (h0 : 0 ≤ r) (h1 : r < 86400) :
    dayNumOf ((n : ℚ) * 86400 + r) = n := by
  unfold dayNumOf
  rw [Int.floor_eq_iff]
  constructor
  · rw [le_div_iff (by norm_num : (0 : ℚ) < 86400)]
    linarith
  · rw [div_lt_iff (by norm_num : (0 : ℚ) < 86400)]
    push_cast
    linarith

theorem jdnToTime_eq (j : Int) : jdnToTime j = ((j - 2440588 : Int) : ℚ) * 86400 + 43200 := by
  unfold jdnToTime
  push_cast
  ring

theorem dayNumOf_jdnToTime (j : Int) : dayNumOf (jdnToTime j) = j - 2440588 := by
  rw [jdnToTime_eq, dayNumOf_int_add _ _ (by norm_num) (by norm_num)]

theorem jdnToTime_strictMono {j k : Int} (h : j < k) : jdnToTime j < jdnToTime k := by
  rw [jdnToTime_eq, jdnToTime_eq]
  have : ((j - 2440588 : Int) : ℚ) < ((k - 2440588 : Int) : ℚ) := by
    exact_mod_cast by omega
  nlinarith

theorem jdnToTime_le {j k : Int} (h : j ≤ k) : jdnToTime j ≤ jdnToTime k := by
  rcases eq_or_lt_of_le h with rfl | h
  · exact le_refl _
  · exact le_of_lt (jdnToTime_strictMono h)

theorem jdnToTime_inj {j k : Int} (h : jdnToTime j = jdnToTime k) : j = k := by
  by_contra hne
  rcases lt_or_gt_of_ne hne with hlt | hgt
  · exact absurd h (ne_of_lt (jdnToTime_strictMono hlt))
  · exact absurd h.symm (ne_of_lt (jdnToTime_strictMono hgt))

/-- Squeeze: a noon lying in the half-open day [noon j, noon (j+1)) is noon j. -/
theorem jdnToTime_squeeze {j k : Int} (h1 : jdnToTime j ≤ jdnToTime k)
    (h2 : jdnToTime k < jdnToTime (j + 1)) : k = j := by
  have hj : j ≤ k := by
    by_contra hc
    exact absurd h1 (not_le.mpr (jdnToTime_strictMono (by omega)))
  have hk : k < j + 1 := by
    by_contra hc
    exact absurd h2 (not_lt.mpr (jdnToTime_le (by omega)))
  omega

theorem modernUtcEpoch_lt_jdnToTime {j : Int} (h : 2441319 ≤ j) :
    modernUtcEpoch < jdnToTime j := by
  have := jdnToTime_le h
  have h0 : modernUtcEpoch < jdnToTime 2441319 := by
    rw [jdnToTime_eq]
    norm_num [modernUtcEpoch]
  linarith

theorem toJdnInt_jdnToTime (j : Int) (h : 2440588 ≤ j) : toJdnInt (jdnToTime j) = j := by
  have hz : 0 ≤ (j - 2440588) * 86400 := by omega
  simp only [toJdnInt, jdnToTime_eq]
  have h1 : ((j - 2440588 : Int) : ℚ) * 86400 + 43200 - 43200 = (((j - 2440588) * 86400 : Int) : ℚ) := by
    push_cast
    ring
  rw [h1]
  rw [if_pos (show (0 : ℚ) ≤ (((j - 2440588) * 86400 : Int) : ℚ) from by exact_mod_cast hz)]
  rw [Int.floor_intCast]
  rw [if_pos hz]
  omega

/-- Components of toTM at a time inside the (nonnegative) day n. -/
theorem toTM_decompose (n : Int) (r : ℚ) (h0 : 0 ≤ r) (h1 : r < 86400) :
    toTM ((n : ℚ) * 86400 + r) =
      ⟨(civilOfDays n).y - 1900, (civilOfDays n).m - 1, (civilOfDays n).d, ⌊r / 3600⌋⟩ := by
  unfold toTM
  rw [dayNumOf_int_add n r h0 h1]
  congr 1
  ring_nf

theorem toTM_jdnToTime_add (j : Int) (r : ℚ) (h0 : -43200 ≤ r) (h1 : r < 43200) :
    toTM (jdnToTime j + r) =
      ⟨(civilOfDays (j - 2440588)).y - 1900, (civilOfDays (j - 2440588)).m - 1,
        (civilOfDays (j - 2440588)).d, ⌊(r + 43200) / 3600⌋⟩ := by
  have he : jdnToTime j + r = ((j - 2440588 : Int) : ℚ) * 86400 + (r + 43200) := by
    rw [jdnToTime_eq]; ring
  rw [he, toTM_decompose _ _ (by linarith) (by linarith)]

/-! ### Saturating Duration (claim C8) -/

/-- Modelled from the spec: the repository's unsmear::Duration delegates all
arithmetic to absl::Duration, an external library.  Per the spec (sections 3
and 4.1) and the repository's duration tests, a Duration is a fixed-point
count with int64 whole seconds and quarter-nanosecond ticks below them, and
all arithmetic saturates at two infinite sentinels. -/
inductive SatDuration
  | negInf
  | fin (ticks : Int)
  | posInf
deriving DecidableEq

/-- Ticks per second in the fixed-point representation (quarter nanoseconds). -/
def ticksPerSecond : Int := 4000000000

/-- Smallest representable finite duration in ticks (-2^63 seconds even). -/
def satMinTicks : Int := -(2 ^ 63) * ticksPerSecond

/-- Largest representable finite duration in ticks ((2^63 - 1) seconds plus
ticksPerSecond - 1 ticks). -/
def satMaxTicks : Int := 2 ^ 63 * ticksPerSecond - 1

/-- The Seconds(int64) factory. -/
def satSeconds (n : Int) : SatDuration := .fin (n * ticksPerSecond)

/-- InfiniteDuration(). -/
def satInfiniteDuration : SatDuration := .posInf

/-- Negation of a saturating duration. -/
def satNeg : SatDuration → SatDuration
  | .negInf => .posInf
  | .posInf => .negInf
  | .fin t => if satMaxTicks < -t then .posInf else if -t < satMinTicks then .negInf else .fin (-t)

/-- Saturating addition: an infinite left operand wins, then an infinite
right operand, and a finite sum saturates on overflow (absl::Duration
operator+= semantics, mandated by the repository's duration tests). -/
def satAdd : SatDuration → SatDuration → SatDuration
  | .posInf, _ => .posInf
  | .negInf, _ => .negInf
  | .fin _, .posInf => .posInf
  | .fin _, .negInf => .negInf
  | .fin a, .fin b =>
    if satMaxTicks < a + b then .posInf
    else if a + b < satMinTicks then .negInf
    else .fin (a + b)

/-! ### Wall-clock formatting (claim C9) -/

/-- The zone-name preprocessing loop of FormatTime in format.cc: scan the
format string, replacing a percent followed by Z with the zone name, passing
any other percent-escape through unchanged, and unswallowing a trailing
percent.  The Bool records the saw_percent state. -/
def substituteZone (zone : List Char) : Bool → List Char → List Char
  | sawPercent, [] => if sawPercent then ['%'] else []
  | true, c :: rest =>
    (if c = 'Z' then zone else ['%', c]) ++ substituteZone zone false rest
  | false, c :: rest =>
    if c = '%' then substituteZone zone true rest
    else c :: substituteZone zone false rest

/-- Reference substitution, stated the way the specification reads: each
unescaped occurrence of the specifier percent-Z becomes the zone name; an
escaped double percent is preserved literally (so the escaped sequence
percent-percent-Z keeps its Z untouched); any other escape and any plain
character pass through unchanged. -/
def zoneSubstSpec (zone : List Char) : List Char → List Char
  | [] => []
  | [c] => if c = '%' then ['%'] else [c]
  | c :: c2 :: rest =>
    if c = '%' then
      (if c2 = '%' then ['%', '%'] ++ zoneSubstSpec zone rest
       else if c2 = 'Z' then zone ++ zoneSubstSpec zone rest
       else ['%', c2] ++ zoneSubstSpec zone rest)
    else c :: zoneSubstSpec zone (c2 :: rest)

/-- The outcome of FormatTime: either one of the fixed infinity strings, or a
preprocessed format string and a Unix-seconds count handed to the external
formatter (absl::FormatTime, out of scope per the spec). -/
inductive FormatResult
  | fixed (s : List Char)
  | viaFormatter (fmt : List Char) (unixSeconds : ℚ)
deriving DecidableEq

/-- ToUnixTime(TaiTime) from format.cc: shift by 4383 days. -/
def toUnixTimeTai (q : ℚ) : ℚ := q - 4383 * 86400

/-- ToUnixTime(GpsTime) from format.cc: shift by 3657 days. -/
def toUnixTimeGps (q : ℚ) : ℚ := q + 3657 * 86400

/-- FormatTime(format, t) for TaiTime. -/
def formatTimeTai (format : List Char) (t : TimeQ) : FormatResult :=
  match t with
  | .posInf => .fixed "tai-infinite-future".toList
  | .negInf => .fixed "tai-infinite-past".toList
  | .fin q => .viaFormatter (substituteZone "TAI".toList false format) (toUnixTimeTai q)

/-- FormatTime(format, t) for GpsTime. -/
def formatTimeGps (format : List Char) (t : TimeQ) : FormatResult :=
  match t with
  | .posInf => .fixed "gpst-infinite-future".toList
  | .negInf => .fixed "gpst-infinite-past".toList
  | .fin q => .viaFormatter (substituteZone "GPST".toList false format) (toUnixTimeGps q)

theorem substituteZone_false_cons (zone : List Char) (c : Char) (rest : List Char) :
    substituteZone zone false (c :: rest) =
      if c = '%' then substituteZone zone true rest
      else c :: substituteZone zone false rest := rfl

theorem substituteZone_true_cons (zone : List Char) (c : Char) (rest : List Char) :
    substituteZone zone true (c :: rest) =
      (if c = 'Z' then zone else ['%', c]) ++ substituteZone zone false rest := rfl

theorem zoneSubstSpec_cons2 (zone : List Char) (c c2 : Char) (rest : List Char) :
    zoneSubstSpec zone (c :: c2 :: rest) =
      if c = '%' then
        (if c2 = '%' then ['%', '%'] ++ zoneSubstSpec zone rest
         else if c2 = 'Z' then zone ++ zoneSubstSpec zone rest
         else ['%', c2] ++ zoneSubstSpec zone rest)
      else c :: zoneSubstSpec zone (c2 :: rest) := rfl

theorem substituteZone_false_eq_spec (zone : List Char) :
    ∀ l : List Char, substituteZone zone false l = zoneSubstSpec zone l
  | [] => rfl
  | [c] => by
    rw [substituteZone_false_cons]
    by_cases hc : c = '%'
    · rw [if_pos hc, hc]
      rfl
    · rw [if_neg hc]
      show [c] = zoneSubstSpec zone [c]
      show [c] = if c = '%' then ['%'] else [c]
      rw [if_neg hc]
  | c :: c2 :: rest => by
    by_cases hc : c = '%'
    · subst hc
      rw [substituteZone_false_cons, if_pos rfl, substituteZone_true_cons,
        zoneSubstSpec_cons2, if_pos rfl]
      by_cases h2 : c2 = '%'
      · subst h2
        rw [if_neg (by decide : ¬('%' : Char) = 'Z'), if_pos rfl,
          substituteZone_false_eq_spec zone rest]
      · by_cases h3 : c2 = 'Z'
        · subst h3
          rw [if_pos rfl, if_neg (by decide : ¬('Z' : Char) = '%'), if_pos rfl,
            substituteZone_false_eq_spec zone rest]
        · rw [if_neg h3, if_neg h2, if_neg h3, substituteZone_false_eq_spec zone rest]
    · rw [substituteZone_false_cons, if_neg hc, zoneSubstSpec_cons2, if_neg hc,
        substituteZone_false_eq_spec zone (c2 :: rest)]

/-! ### Sorting lemmas -/

/-- The (utc, smear) skeleton of an entry: everything except the TAI field,
which the fill loop recomputes. -/
def skel (e : LeapTableEntry) : ℚ × Int := (e.utc, e.smear)

/-- Descending-UTC order between entries (non-strict). -/
def utcGE (a b : LeapTableEntry) : Prop := b.utc ≤ a.utc

theorem insertEntry_perm (e : LeapTableEntry) :
    ∀ l : List LeapTableEntry, (insertEntry e l).Perm (e :: l)
  | [] => List.Perm.refl _
  | b :: bs => by
    unfold insertEntry
    split_ifs
    · exact List.Perm.refl _
    · exact ((insertEntry_perm e bs).cons b).trans (List.Perm.swap e b bs)

theorem sortEntries_perm : ∀ l : List LeapTableEntry, (sortEntries l).Perm l
  | [] => List.Perm.refl _
  | e :: es =>
    (insertEntry_perm e (sortEntries es)).trans ((sortEntries_perm es).cons e)

theorem insertEntry_sorted (e : LeapTableEntry) :
    ∀ l : List LeapTableEntry, l.Pairwise utcGE → (insertEntry e l).Pairwise utcGE
  | [], _ => List.pairwise_singleton _ _
  | b :: bs, h => by
    unfold insertEntry
    rw [List.pairwise_cons] at h
    split_ifs with hc
    · refine List.pairwise_cons.mpr ⟨?_, List.pairwise_cons.mpr h⟩
      intro x hx
      rcases List.mem_cons.mp hx with rfl | hx
      · exact le_of_lt hc
      · exact le_trans (h.1 x hx) (le_of_lt hc)
    · refine List.pairwise_cons.mpr ⟨?_, insertEntry_sorted e bs h.2⟩
      intro x hx
      rcases List.mem_cons.mp ((insertEntry_perm e bs).mem_iff.mp hx) with rfl | hx
      · exact not_lt.mp hc
      · exact h.1 x hx

theorem sortEntries_sorted : ∀ l : List LeapTableEntry, (sortEntries l).Pairwise utcGE
  | [] => List.Pairwise.nil
  | e :: es => insertEntry_sorted e (sortEntries es) (sortEntries_sorted es)

/-! ### Fill-loop lemmas -/

/-- Ascending (oldest-to-newest) relation established by the fill loop: the
TAI chain rule plus distinct UTC times. -/
def ascRel (a b : LeapTableEntry) : Prop :=
  b.tai = a.tai + (b.utc - a.utc) + (b.smear : ℚ) ∧ b.utc ≠ a.utc

theorem fillTai_some (prev : LeapTableEntry) :
    ∀ (l out : List LeapTableEntry), fillTai prev l = some out →
      out.map skel = (prev :: l).map skel ∧ out.Chain' ascRel ∧ out.head? = some prev
  | [], out, h => by
    simp only [fillTai, Option.some.injEq] at h
    subst h
    exact ⟨rfl, List.chain'_singleton _, rfl⟩
  | e :: rest, out, h => by
    simp only [fillTai] at h
    split_ifs at h with h1 h2
    revert h
    cases hfill : fillTai ⟨e.utc, prev.tai + (e.utc - prev.utc) + (e.smear : ℚ), e.smear⟩ rest with
    | none => intro h; exact absurd h (by simp)
    | some l2 =>
      intro h
      simp only [Option.some.injEq] at h
      subst h
      obtain ⟨hskel, hchain, hhead⟩ := fillTai_some _ rest l2 hfill
      refine ⟨?_, ?_, rfl⟩
      · simp only [List.map_cons]
        rw [hskel]
        rfl
      · cases l2 with
        | nil => exact Option.noConfusion hhead
        | cons x xs =>
          simp only [List.head?_cons, Option.some.injEq] at hhead
          subst hhead
          refine List.chain'_cons.mpr ⟨⟨?_, h1⟩, hchain⟩
          rfl

/-! ### Decomposition of a successful construction -/

theorem buildFromSorted_some {exp : ℚ} {sorted : List LeapTableEntry} {lt : LeapTable}
    (h : buildFromSorted exp sorted = some lt) :
    ∃ front tail oldest older asc,
      sorted = front :: tail ∧ front.utc = exp ∧ front.smear = 0 ∧
      sorted.reverse = oldest :: older ∧ fillTai oldest older = some asc ∧
      lt.entries = asc.reverse := by
  cases sorted with
  | nil => exact absurd h (by simp [buildFromSorted])
  | cons front tail =>
    simp only [buildFromSorted] at h
    split_ifs at h with h1 h2
    push_neg at h1
    cases hrev : (front :: tail).reverse with
    | nil => exact absurd hrev (by simp)
    | cons oldest older =>
      rw [hrev] at h
      simp only at h
      revert h
      cases hfill : fillTai oldest older with
      | none => intro h; exact absurd h (by simp)
      | some asc =>
        intro h
        simp only [Option.some.injEq] at h
        exact ⟨front, tail, oldest, older, asc, rfl, h1.1, h1.2, rfl, hfill,
          by rw [← h]⟩

theorem construct_success {p : LeapTableProto} {lt : LeapTable}
    (h : newLeapTableFromProto p = some lt) :
    kMinJdn ≤ p.end_jdn ∧ p.end_jdn ≤ kMaxJdn ∧
    (toTM (jdnToTime (p.end_jdn + 1) + 86400)).tm_mday = 1 ∧
    (∀ j ∈ p.positive_leaps, kMinJdn ≤ j ∧ j ≤ kMaxJdn) ∧
    (∀ j ∈ p.negative_leaps, kMinJdn ≤ j ∧ j ≤ kMaxJdn) ∧
    buildFromSorted (jdnToTime (p.end_jdn + 1)) (sortEntries (unsortedEntries p)) = some lt := by
  unfold newLeapTableFromProto at h
  split_ifs at h with h1 h2 h3 h4
  push_neg at h1
  refine ⟨h1.1, h1.2, by omega, ?_, ?_, h⟩
  · intro j hj
    by_contra hc
    exact h3 (List.any_eq_true.mpr ⟨j, hj, by
      simp only [Bool.or_eq_true, decide_eq_true_eq]
      omega⟩)
  · intro j hj
    by_contra hc
    exact h4 (List.any_eq_true.mpr ⟨j, hj, by
      simp only [Bool.or_eq_true, decide_eq_true_eq]
      omega⟩)

/-! ### Membership structure of the unsorted entry list -/

theorem mem_leapPair {s j : Int} {x : LeapTableEntry} (hx : x ∈ leapPairEntries s j) :
    x = ⟨jdnToTime j, 0, 0⟩ ∨ x = ⟨jdnToTime (j + 1), 0, s⟩ := by
  simp only [leapPairEntries, List.mem_cons, List.mem_singleton] at hx
  tauto

theorem mem_unsortedEntries {p : LeapTableProto} {x : LeapTableEntry}
    (hx : x ∈ unsortedEntries p) :
    x = ⟨jdnToTime (p.end_jdn + 1), 0, 0⟩ ∨
    x = ⟨modernUtcEpoch, taiModernUtcEpoch, 0⟩ ∨
    (∃ j ∈ p.positive_leaps, x = ⟨jdnToTime j, 0, 0⟩ ∨ x = ⟨jdnToTime (j + 1), 0, 1⟩) ∨
    (∃ j ∈ p.negative_leaps, x = ⟨jdnToTime j, 0, 0⟩ ∨ x = ⟨jdnToTime (j + 1), 0, -1⟩) := by
  simp only [unsortedEntries, List.mem_cons, List.mem_append, List.mem_flatMap,
    List.mem_singleton, List.not_mem_nil, or_false] at hx
  rcases hx with rfl | ⟨⟨j, hj, hmem⟩ | ⟨j, hj, hmem⟩⟩ | rfl
  · exact Or.inl rfl
  · exact Or.inr (Or.inr (Or.inl ⟨j, hj, mem_leapPair hmem⟩))
  · exact Or.inr (Or.inr (Or.inr ⟨j, hj, mem_leapPair hmem⟩))
  · exact Or.inr (Or.inl rfl)

/-! ### Generic chain and pairwise helpers -/

theorem chain'_and {α : Type} {R S : α → α → Prop} :
    ∀ {l : List α}, l.Chain' R → l.Chain' S → l.Chain' (fun a b => R a b ∧ S a b)
  | [], _, _ => List.chain'_nil
  | [_], _, _ => List.chain'_singleton _
  | a :: b :: t, hR, hS => by
    rw [List.chain'_cons] at hR hS ⊢
    exact ⟨⟨hR.1, hS.1⟩, chain'_and hR.2 hS.2⟩

theorem chain'_of_forall {α : Type} {P : α → Prop} :
    ∀ {l : List α}, (∀ a ∈ l, P a) → l.Chain' (fun a _ => P a)
  | [], _ => List.chain'_nil
  | [_], _ => List.chain'_singleton _
  | a :: b :: t, h => by
    rw [List.chain'_cons]
    exact ⟨h a (by simp), chain'_of_forall (fun x hx => h x (List.mem_cons_of_mem a hx))⟩

theorem pairwise_getLast?_le {l : List LeapTableEntry} (hs : l.Pairwise utcGE)
    {z : LeapTableEntry} (hz : l.getLast? = some z) : ∀ y ∈ l, z.utc ≤ y.utc := by
  induction l with
  | nil => simp at hz
  | cons a t ih =>
    rw [List.pairwise_cons] at hs
    intro y hy
    cases t with
    | nil =>
      simp only [List.getLast?_singleton, Option.some.injEq] at hz
      subst hz
      simp only [List.mem_singleton] at hy
      subst hy
      exact le_refl _
    | cons b t2 =>
      have hz2 : (b :: t2).getLast? = some z := by
        rw [List.getLast?_cons_cons] at hz
        exact hz
      rcases List.mem_cons.mp hy with rfl | hy2
      · have hzmem : z ∈ b :: t2 := by
          rcases List.mem_getLast?_eq_getLast (Option.mem_def.mpr hz2) with ⟨hne, rfl⟩
          exact List.getLast_mem hne
        exact hs.1 z hzmem
      · exact ih hs.2 hz2 y hy2

/-! ### Invariants of a constructed leap table -/

/-- The strict descending relation carried by adjacent entries of a
constructed table: the TAI chain rule, strictly decreasing UTC, a smear
segment exactly 24 h of UTC wide, and smear in -1..1. -/
def descRel (a b : LeapTableEntry) : Prop :=
  a.tai = b.tai + (a.utc - b.utc) + (a.smear : ℚ) ∧ b.utc < a.utc ∧
  (a.smear ≠ 0 → a.utc - b.utc = 86400) ∧ (a.smear = -1 ∨ a.smear = 0 ∨ a.smear = 1)

/-- Everything a successful NewLeapTableFromProto guarantees about the
resulting entry list. -/
structure TableInv (p : LeapTableProto) (es : List LeapTableEntry) : Prop where
  chain : es.Chain' descRel
  len2 : 2 ≤ es.length
  headUtc : es.headI.utc = jdnToTime (p.end_jdn + 1)
  headSmear : es.headI.smear = 0
  lastEq : es.getLast? = some ⟨modernUtcEpoch, taiModernUtcEpoch, 0⟩
  endMin : kMinJdn ≤ p.end_jdn
  endMax : p.end_jdn ≤ kMaxJdn
  mday1 : (toTM (jdnToTime (p.end_jdn + 1) + 86400)).tm_mday = 1
  skelPerm : (es.map skel).Perm ((unsortedEntries p).map skel)
  posRange : ∀ j ∈ p.positive_leaps, kMinJdn ≤ j ∧ j ≤ kMaxJdn
  negRange : ∀ j ∈ p.negative_leaps, kMinJdn ≤ j ∧ j ≤ kMaxJdn

/-- UTC form of every entry of a table whose skeletons come from a valid
catalog: the modern UTC epoch or a noon at JDN at least 2441319. -/
theorem utc_form_of_skelPerm {p : LeapTableProto} {es : List LeapTableEntry}
    (hperm : (es.map skel).Perm ((unsortedEntries p).map skel))
    (hend : kMinJdn ≤ p.end_jdn)
    (hpos : ∀ j ∈ p.positive_leaps, kMinJdn ≤ j ∧ j ≤ kMaxJdn)
    (hneg : ∀ j ∈ p.negative_leaps, kMinJdn ≤ j ∧ j ≤ kMaxJdn) :
    ∀ e ∈ es, e.utc = modernUtcEpoch ∨ ∃ k, 2441319 ≤ k ∧ e.utc = jdnToTime k := by
  intro e he
  have h1 : skel e ∈ (unsortedEntries p).map skel :=
    hperm.mem_iff.mp (List.mem_map_of_mem skel he)
  obtain ⟨u, hu, hsk⟩ := List.mem_map.mp h1
  have hutc : e.utc = u.utc := by
    have := congrArg Prod.fst hsk
    simpa [skel] using this.symm
  rcases mem_unsortedEntries hu with rfl | rfl | ⟨j, hj, rfl | rfl⟩ | ⟨j, hj, rfl | rfl⟩
  · exact Or.inr ⟨p.end_jdn + 1, by unfold kMinJdn at hend; omega, hutc⟩
  · exact Or.inl hutc
  · exact Or.inr ⟨j, by have := hpos j hj; unfold kMinJdn at this; omega, hutc⟩
  · exact Or.inr ⟨j + 1, by have := hpos j hj; unfold kMinJdn at this; omega, hutc⟩
  · exact Or.inr ⟨j, by have := hneg j hj; unfold kMinJdn at this; omega, hutc⟩
  · exact Or.inr ⟨j + 1, by have := hneg j hj; unfold kMinJdn at this; omega, hutc⟩

/-- A leap's smear-start partner entry is in the unsorted list. -/
theorem partner_mem_unsorted {p : LeapTableProto} {j : Int}
    (hj : j ∈ p.positive_leaps ∨ j ∈ p.negative_leaps) :
    (⟨jdnToTime j, 0, 0⟩ : LeapTableEntry) ∈ unsortedEntries p := by
  unfold unsortedEntries
  rcases hj with hj | hj
  · exact List.mem_cons_of_mem _ (List.mem_append.mpr (Or.inl (List.mem_append.mpr (Or.inl
      (List.mem_flatMap.mpr ⟨j, hj, by simp [leapPairEntries]⟩)))))
  · exact List.mem_cons_of_mem _ (List.mem_append.mpr (Or.inl (List.mem_append.mpr (Or.inr
      (List.mem_flatMap.mpr ⟨j, hj, by simp [leapPairEntries]⟩)))))

/-- Every smear boundary of the table is the noon after some in-range leap
day, and its smear-start partner is present in the table. -/
theorem smear_entry_form {p : LeapTableProto} {es : List LeapTableEntry}
    (hperm : (es.map skel).Perm ((unsortedEntries p).map skel))
    (hpos : ∀ j ∈ p.positive_leaps, kMinJdn ≤ j ∧ j ≤ kMaxJdn)
    (hneg : ∀ j ∈ p.negative_leaps, kMinJdn ≤ j ∧ j ≤ kMaxJdn) :
    ∀ e ∈ es, e.smear ≠ 0 →
      ∃ j, 2441319 ≤ j ∧ e.utc = jdnToTime (j + 1) ∧ ∃ x ∈ es, x.utc = jdnToTime j := by
  intro e he hsm
  have h1 : skel e ∈ (unsortedEntries p).map skel :=
    hperm.mem_iff.mp (List.mem_map_of_mem skel he)
  obtain ⟨u, hu, hsk⟩ := List.mem_map.mp h1
  have hutc : e.utc = u.utc := by
    have := congrArg Prod.fst hsk
    simpa [skel] using this.symm
  have hsmear : e.smear = u.smear := by
    have := congrArg Prod.snd hsk
    simpa [skel] using this.symm
  have hpartner : ∀ j : Int, (j ∈ p.positive_leaps ∨ j ∈ p.negative_leaps) →
      ∃ x ∈ es, x.utc = jdnToTime j := by
    intro j hj
    have hw : skel (⟨jdnToTime j, 0, 0⟩ : LeapTableEntry) ∈ (unsortedEntries p).map skel :=
      List.mem_map_of_mem skel (partner_mem_unsorted hj)
    obtain ⟨x, hxes, hxsk⟩ := List.mem_map.mp (hperm.symm.mem_iff.mp hw)
    refine ⟨x, hxes, ?_⟩
    have := congrArg Prod.fst hxsk
    simpa [skel] using this
  rcases mem_unsortedEntries hu with rfl | rfl | ⟨j, hj, rfl | rfl⟩ | ⟨j, hj, rfl | rfl⟩
  · simp at hsmear
    exact absurd hsmear hsm
  · simp at hsmear
    exact absurd hsmear hsm
  · simp at hsmear
    exact absurd hsmear hsm
  · exact ⟨j, by have := hpos j hj; unfold kMinJdn at this; omega, hutc,
      hpartner j (Or.inl hj)⟩
  · simp at hsmear
    exact absurd hsmear hsm
  · exact ⟨j, by have := hneg j hj; unfold kMinJdn at this; omega, hutc,
      hpartner j (Or.inr hj)⟩

/-- Smear direction of every entry is -1, 0 or 1. -/
theorem smear_bound_of_skelPerm {p : LeapTableProto} {es : List LeapTableEntry}
    (hperm : (es.map skel).Perm ((unsortedEntries p).map skel)) :
    ∀ e ∈ es, e.smear = -1 ∨ e.smear = 0 ∨ e.smear = 1 := by
  intro e he
  have h1 : skel e ∈ (unsortedEntries p).map skel :=
    hperm.mem_iff.mp (List.mem_map_of_mem skel he)
  obtain ⟨u, hu, hsk⟩ := List.mem_map.mp h1
  have hsmear : e.smear = u.smear := by
    have := congrArg Prod.snd hsk
    simpa [skel] using this.symm
  rcases mem_unsortedEntries hu with rfl | rfl | ⟨j, hj, rfl | rfl⟩ | ⟨j, hj, rfl | rfl⟩ <;>
    simp at hsmear <;> omega

/-- The key geometric fact: in a strictly descending table, the entry
directly below a smear boundary at noon of JDN j+1 is exactly at noon of
JDN j, because the partner entry at that noon is in the table and no table
time lies strictly between the two noons. -/
theorem gap_chain {es : List LeapTableEntry}
    (hP : es.Pairwise (fun a b => b.utc < a.utc))
    (hA : ∀ e ∈ es, e.utc = modernUtcEpoch ∨ ∃ k, 2441319 ≤ k ∧ e.utc = jdnToTime k)
    (hB : ∀ e ∈ es, e.smear ≠ 0 →
      ∃ j, 2441319 ≤ j ∧ e.utc = jdnToTime (j + 1) ∧ ∃ x ∈ es, x.utc = jdnToTime j) :
    es.Chain' (fun a b => a.smear ≠ 0 → a.utc - b.utc = 86400) := by
  induction es with
  | nil => exact List.chain'_nil
  | cons a t ih =>
    cases t with
    | nil => exact List.chain'_singleton _
    | cons b t2 =>
      rw [List.pairwise_cons] at hP
      refine List.chain'_cons.mpr ⟨?_, ?_⟩
      · intro hsm
        obtain ⟨j, hjmin, haj, x, hxmem, hxutc⟩ := hB a (by simp) hsm
        have hxa : x.utc < a.utc := by
          rw [hxutc, haj]
          exact jdnToTime_strictMono (by omega)
        have hxb : x.utc ≤ b.utc := by
          rcases List.mem_cons.mp hxmem with rfl | hx2
          · exact absurd hxa (lt_irrefl _)
          · rcases List.mem_cons.mp hx2 with rfl | hx3
            · exact le_refl _
            · exact le_of_lt ((List.pairwise_cons.mp hP.2).1 x hx3)
        have hba : b.utc < a.utc := hP.1 b (by simp)
        -- b lies in [noon j, noon (j+1)), and is itself an epoch or a noon
        rcases hA b (by simp) with hbe | ⟨k, hkmin, hbk⟩
        · rw [hxutc] at hxb
          rw [hbe] at hxb
          exact absurd hxb (not_le.mpr (modernUtcEpoch_lt_jdnToTime (by omega)))
        · have hk : k = j := jdnToTime_squeeze (by rw [← hxutc, ← hbk] at *; linarith [hxb])
            (by rw [← hbk] at *; rw [haj] at hba; exact hba)
          rw [haj, hbk, hk]
          rw [jdnToTime_eq, jdnToTime_eq]
          push_cast
          ring
      · exact ih hP.2
          (fun e he => hA e (List.mem_cons_of_mem a he))
          (fun e he hsm => by
            obtain ⟨j, hjmin, hej, x, hxmem, hxutc⟩ := hB e (List.mem_cons_of_mem a he) hsm
            refine ⟨j, hjmin, hej, x, ?_, hxutc⟩
            rcases List.mem_cons.mp hxmem with rfl | hx2
            · exfalso
              have h1 : e.utc < x.utc := hP.1 e he
              rw [hxutc, hej] at h1
              exact absurd h1 (not_lt.mpr (jdnToTime_le (by omega)))
            · exact hx2)

/-- The modern UTC epoch entry, as pre-filled by the construction. -/
def epochEntry : LeapTableEntry := ⟨modernUtcEpoch, taiModernUtcEpoch, 0⟩

theorem construct_inv {p : LeapTableProto} {lt : LeapTable}
    (h : newLeapTableFromProto p = some lt) : TableInv p lt.entries := by
  obtain ⟨hmin, hmax, hmday, hpos, hneg, hbuild⟩ := construct_success h
  obtain ⟨front, tail, oldest, older, asc, hsorted, hfU, hfS, hrev, hfill, hes⟩ :=
    buildFromSorted_some hbuild
  obtain ⟨hskel, hchainAsc, hheadAsc⟩ := fillTai_some oldest older asc hfill
  rw [hsorted] at hrev
  have hmapskel : lt.entries.map skel = (front :: tail).map skel := by
    rw [hes, List.map_reverse, hskel]
    rw [show (oldest :: older : List LeapTableEntry) = (front :: tail).reverse from hrev.symm]
    rw [List.map_reverse, List.reverse_reverse]
  have hperm : (lt.entries.map skel).Perm ((unsortedEntries p).map skel) := by
    rw [hmapskel, ← hsorted]
    exact (sortEntries_perm (unsortedEntries p)).map skel
  have hsortPW : (front :: tail).Pairwise utcGE := by
    rw [← hsorted]
    exact sortEntries_sorted (unsortedEntries p)
  have hlen : 2 ≤ lt.entries.length := by
    have h1 : lt.entries.length = (front :: tail).length := by
      have := congrArg List.length hmapskel
      simpa using this
    have h2 : (front :: tail).length = (unsortedEntries p).length := by
      rw [← hsorted]
      exact (sortEntries_perm (unsortedEntries p)).length_eq
    have h3 : 2 ≤ (unsortedEntries p).length := by
      simp only [unsortedEntries, List.length_cons, List.length_append, List.length_singleton]
      omega
    omega
  obtain ⟨e0, rest0, hes0⟩ : ∃ e0 rest0, lt.entries = e0 :: rest0 := by
    cases hcase : lt.entries with
    | nil => rw [hcase] at hlen; simp at hlen
    | cons x xs => exact ⟨x, xs, rfl⟩
  have hske0 : skel e0 = skel front := by
    rw [hes0] at hmapskel
    simp only [List.map_cons, List.cons.injEq] at hmapskel
    exact hmapskel.1
  have he0utc : e0.utc = jdnToTime (p.end_jdn + 1) := by
    have := congrArg Prod.fst hske0
    simp only [skel] at this
    rw [this, hfU]
  have he0smear : e0.smear = 0 := by
    have := congrArg Prod.snd hske0
    simp only [skel] at this
    rw [this, hfS]
  have hlastsorted : (front :: tail).getLast? = some oldest := by
    rw [← List.head?_reverse, hrev]
    rfl
  have holdmem : oldest ∈ front :: tail := by
    rcases List.mem_getLast?_eq_getLast (Option.mem_def.mpr hlastsorted) with ⟨hne, rfl⟩
    exact List.getLast_mem hne
  have hepochmem : epochEntry ∈ front :: tail := by
    rw [← hsorted]
    exact (sortEntries_perm (unsortedEntries p)).mem_iff.mpr
      (by simp [unsortedEntries, epochEntry])
  have hold_le : oldest.utc ≤ epochEntry.utc :=
    pairwise_getLast?_le hsortPW hlastsorted epochEntry hepochmem
  have holdeq : oldest = epochEntry := by
    have holdunsorted : oldest ∈ unsortedEntries p := by
      rw [← hsorted] at holdmem
      exact (sortEntries_perm (unsortedEntries p)).mem_iff.mp holdmem
    have hbig : ∀ (k : Int), 2441319 ≤ k → ¬(jdnToTime k ≤ epochEntry.utc) := by
      intro k hk
      exact not_le.mpr (modernUtcEpoch_lt_jdnToTime hk)
    rcases mem_unsortedEntries holdunsorted with he | he | ⟨j, hj, he | he⟩ | ⟨j, hj, he | he⟩
    · exfalso
      refine hbig (p.end_jdn + 1) (by unfold kMinJdn at hmin; omega) ?_
      rw [← show oldest.utc = jdnToTime (p.end_jdn + 1) from by rw [he]]
      exact hold_le
    · rw [he]; rfl
    · exfalso
      refine hbig j (by have := hpos j hj; unfold kMinJdn at this; omega) ?_
      rw [← show oldest.utc = jdnToTime j from by rw [he]]
      exact hold_le
    · exfalso
      refine hbig (j + 1) (by have := hpos j hj; unfold kMinJdn at this; omega) ?_
      rw [← show oldest.utc = jdnToTime (j + 1) from by rw [he]]
      exact hold_le
    · exfalso
      refine hbig j (by have := hneg j hj; unfold kMinJdn at this; omega) ?_
      rw [← show oldest.utc = jdnToTime j from by rw [he]]
      exact hold_le
    · exfalso
      refine hbig (j + 1) (by have := hneg j hj; unfold kMinJdn at this; omega) ?_
      rw [← show oldest.utc = jdnToTime (j + 1) from by rw [he]]
      exact hold_le
  have hlastEq : lt.entries.getLast? = some epochEntry := by
    rw [hes, List.getLast?_reverse, ← holdeq]
    cases asc with
    | nil => exact Option.noConfusion hheadAsc
    | cons x xs => exact hheadAsc
  have hpwGE : lt.entries.Pairwise utcGE := by
    have hmaputc : lt.entries.map (fun e => e.utc) = (front :: tail).map (fun e => e.utc) := by
      have h1 : ∀ l : List LeapTableEntry,
          l.map (fun e => e.utc) = (l.map skel).map Prod.fst := by
        intro l
        rw [List.map_map]
        rfl
      rw [h1, h1, hmapskel]
    have h2 : ((front :: tail).map (fun e => e.utc)).Pairwise (fun a b => b ≤ a) :=
      List.pairwise_map.mpr hsortPW
    rw [← hmaputc] at h2
    have h3 := List.pairwise_map.mp h2
    exact h3.imp (fun hx => hx)
  have hchainBase : lt.entries.Chain'
      (fun a b => a.tai = b.tai + (a.utc - b.utc) + (a.smear : ℚ) ∧ a.utc ≠ b.utc) := by
    rw [hes]
    exact List.chain'_reverse.mpr (hchainAsc.imp (fun a b hab => ⟨hab.1, hab.2⟩))
  have hchainStrict : lt.entries.Chain' (fun a b => b.utc < a.utc) :=
    (chain'_and hchainBase hpwGE.chain').imp
      (fun a b hab => lt_of_le_of_ne hab.2 (fun he => hab.1.2 he.symm))
  have hpwStrict : lt.entries.Pairwise (fun a b => b.utc < a.utc) := by
    haveI : IsTrans LeapTableEntry (fun a b => b.utc < a.utc) :=
      ⟨fun _ _ _ h1 h2 => lt_trans h2 h1⟩
    exact List.chain'_iff_pairwise.mp hchainStrict
  have hchainGap : lt.entries.Chain' (fun a b => a.smear ≠ 0 → a.utc - b.utc = 86400) :=
    gap_chain hpwStrict
      (utc_form_of_skelPerm hperm hmin hpos hneg)
      (smear_entry_form hperm hpos hneg)
  have hchainBound : lt.entries.Chain'
      (fun a _ => a.smear = -1 ∨ a.smear = 0 ∨ a.smear = 1) :=
    chain'_of_forall (smear_bound_of_skelPerm hperm)
  refine ⟨?_, hlen, ?_, ?_, hlastEq, hmin, hmax, hmday, hperm, hpos, hneg⟩
  · exact (chain'_and (chain'_and (chain'_and hchainBase hchainStrict) hchainGap)
      hchainBound).imp
      (fun a b hab => ⟨hab.1.1.1.1, hab.1.1.2, hab.1.2, hab.2⟩)
  · rw [hes0]
    exact he0utc
  · rw [hes0]
    exact he0smear


/-! ### Interpolation algebra -/

theorem descRel_tai_lt {a b : LeapTableEntry} (h : descRel a b) : b.tai < a.tai := by
  obtain ⟨hchain, hlt, hgap, hbound⟩ := h
  rcases hbound with hs | hs | hs
  · have hg := hgap (by rw [hs]; decide)
    rw [hchain, hs]
    push_cast
    linarith
  · rw [hchain, hs]
    push_cast
    linarith
  · have hg := hgap (by rw [hs]; decide)
    rw [hchain, hs]
    push_cast
    linarith

theorem interpolateTai_bounds {e b : LeapTableEntry} (hd : descRel e b) {t : ℚ}
    (hbt : b.utc ≤ t) (hte : t ≤ e.utc) :
    b.tai ≤ interpolateTai e t ∧ interpolateTai e t ≤ e.tai ∧
      (t < e.utc → interpolateTai e t < e.tai) := by
  obtain ⟨hchain, hlt, hgap, hbound⟩ := hd
  unfold interpolateTai
  rcases hbound with hs | hs | hs
  · have hg := hgap (by rw [hs]; decide)
    rw [hs] at hchain ⊢
    rw [if_pos (by decide)]
    push_cast at hchain ⊢
    refine ⟨by linarith, by linarith, fun hst => by linarith⟩
  · rw [hs] at hchain ⊢
    rw [if_neg (by decide)]
    push_cast at hchain ⊢
    refine ⟨by linarith, by linarith, fun hst => by linarith⟩
  · have hg := hgap (by rw [hs]; decide)
    rw [hs] at hchain ⊢
    rw [if_pos (by decide)]
    push_cast at hchain ⊢
    refine ⟨by linarith, by linarith, fun hst => by linarith⟩

theorem interpolateTime_interpolateTai {e b : LeapTableEntry} (hd : descRel e b) (t : ℚ) :
    interpolateTime e (interpolateTai e t) = t := by
  obtain ⟨hchain, hlt, hgap, hbound⟩ := hd
  unfold interpolateTime interpolateTai
  rcases hbound with hs | hs | hs <;> rw [hs]
  · rw [if_pos (by decide), if_pos (by decide)]
    push_cast
    field_simp
    ring
  · rw [if_neg (by decide), if_neg (by decide)]
    ring
  · rw [if_pos (by decide), if_pos (by decide)]
    push_cast
    field_simp
    ring

/-! ### The lockstep scan lemma -/

theorem pairwise_getLast?_cases {α : Type} {R : α → α → Prop} :
    ∀ {l : List α}, l.Pairwise R → ∀ {z : α}, l.getLast? = some z → ∀ y ∈ l, y = z ∨ R y z := by
  intro l
  induction l with
  | nil => intro _ z hz; simp at hz
  | cons a s ih =>
    intro hp z hz y hy
    rw [List.pairwise_cons] at hp
    cases s with
    | nil =>
      simp only [List.getLast?_singleton, Option.some.injEq] at hz
      subst hz
      simp only [List.mem_singleton] at hy
      exact Or.inl hy
    | cons a2 s2 =>
      rw [List.getLast?_cons_cons] at hz
      rcases List.mem_cons.mp hy with rfl | hy2
      · refine Or.inr (hp.1 z ?_)
        rcases List.mem_getLast?_eq_getLast (Option.mem_def.mpr hz) with ⟨hne, rfl⟩
        exact List.getLast_mem hne
      · exact ih hp.2 hz y hy2

theorem chain'_pairwise_tai {l : List LeapTableEntry} (hc : l.Chain' descRel) :
    l.Pairwise (fun a b => b.tai < a.tai) := by
  haveI : IsTrans LeapTableEntry (fun a b => b.tai < a.tai) :=
    ⟨fun _ _ _ h1 h2 => lt_trans h2 h1⟩
  exact List.chain'_iff_pairwise.mp (hc.imp (fun a b hab => descRel_tai_lt hab))

theorem scan_round_trip (t : ℚ) (z : LeapTableEntry) :
    ∀ (rest : List LeapTableEntry) (prev b : LeapTableEntry),
      (prev :: b :: rest).Chain' descRel →
      (b :: rest).getLast? = some z →
      z.utc ≤ t → t ≤ prev.utc →
      ∃ v, unsmearLoop t prev (b :: rest) = some v ∧
        z.tai ≤ v ∧ v ≤ prev.tai ∧ (t < prev.utc → v < prev.tai) ∧
        smearLoop v prev (b :: rest) = some t := by
  intro rest
  induction rest with
  | nil =>
    intro prev b hchain hlast hzt htp
    simp only [List.getLast?_singleton, Option.some.injEq] at hlast
    subst hlast
    have hd : descRel prev b := (List.chain'_cons.mp hchain).1
    have hb := interpolateTai_bounds hd hzt htp
    refine ⟨interpolateTai prev t, ?_, hb.1, hb.2.1, hb.2.2, ?_⟩
    · simp only [unsmearLoop]
      rw [if_pos hzt]
    · simp only [smearLoop]
      rw [if_pos hb.1, interpolateTime_interpolateTai hd]
  | cons b2 rest2 ih =>
    intro prev b hchain hlast hzt htp
    have hd : descRel prev b := (List.chain'_cons.mp hchain).1
    have hchain2 : (b :: b2 :: rest2).Chain' descRel := (List.chain'_cons.mp hchain).2
    have hlast2 : (b2 :: rest2).getLast? = some z := by
      rw [List.getLast?_cons_cons] at hlast
      exact hlast
    by_cases hbt : b.utc ≤ t
    · have hb := interpolateTai_bounds hd hbt htp
      have hz_le_b : z.tai ≤ b.tai := by
        rcases pairwise_getLast?_cases (chain'_pairwise_tai hchain2) hlast b (by simp)
          with rfl | hr
        · exact le_refl _
        · exact le_of_lt hr
      refine ⟨interpolateTai prev t, ?_, le_trans hz_le_b hb.1, hb.2.1, hb.2.2, ?_⟩
      · simp only [unsmearLoop]
        rw [if_pos hbt]
      · simp only [smearLoop]
        rw [if_pos hb.1, interpolateTime_interpolateTai hd]
    · push_neg at hbt
      obtain ⟨v, hvu, hvz, hvb, hstrict, hvs⟩ := ih b b2 hchain2 hlast2 hzt (le_of_lt hbt)
      have hvb2 : v < b.tai := hstrict hbt
      have hvp : v < prev.tai := lt_trans hvb2 (descRel_tai_lt hd)
      refine ⟨v, ?_, hvz, le_of_lt hvp, fun _ => hvp, ?_⟩
      · simp only [unsmearLoop]
        rw [if_neg (not_le.mpr hbt)]
        exact hvu
      · simp only [smearLoop]
        rw [if_neg (not_le.mpr hvb2)]
        exact hvs


/-! ### Claim C1: round trip inside the table -/

theorem entries_decompose {p : LeapTableProto} {lt : LeapTable} (inv : TableInv p lt.entries) :
    ∃ e0 b rest, lt.entries = e0 :: b :: rest := by
  have hlen := inv.len2
  obtain ⟨e0, r0, h0⟩ : ∃ a s, lt.entries = a :: s := by
    cases hh : lt.entries with
    | nil => rw [hh] at hlen; simp at hlen
    | cons a s => exact ⟨a, s, rfl⟩
  obtain ⟨b, rest, hr⟩ : ∃ a s, r0 = a :: s := by
    cases hh : r0 with
    | nil => rw [h0, hh] at hlen; simp at hlen
    | cons a s => exact ⟨a, s, rfl⟩
  exact ⟨e0, b, rest, by rw [h0, hr]⟩

/-- For every successfully constructed leap table and every smeared-UTC time
between the modern UTC epoch and the expiration, Unsmear succeeds and Smear
inverts it exactly (claim C1).  Arithmetic is the exact-rational model of the
absl operations. -/
theorem c1_round_trip (p : LeapTableProto) (lt : LeapTable) (t : ℚ)
    (h : newLeapTableFromProto p = some lt)
    (h1 : modernUtcEpoch ≤ t) (h2 : t ≤ lt.expiration) :
    ∃ v : ℚ, unsmear lt (.fin t) = some (.fin v) ∧ smearTai lt (.fin v) = some (.fin t) := by
  have inv := construct_inv h
  obtain ⟨e0, b, rest, hes⟩ := entries_decompose inv
  have hchain : (e0 :: b :: rest).Chain' descRel := by rw [← hes]; exact inv.chain
  have hlast : (b :: rest).getLast? = some epochEntry := by
    have hl := inv.lastEq
    rw [hes, List.getLast?_cons_cons] at hl
    exact hl
  have hexp : lt.expiration = e0.utc := by
    unfold LeapTable.expiration
    rw [hes]
    rfl
  have h2e : t ≤ e0.utc := by rw [← hexp]; exact h2
  have h1e : epochEntry.utc ≤ t := h1
  obtain ⟨v, hvu, hvz, hvb, _, hvs⟩ :=
    scan_round_trip t epochEntry rest e0 b hchain hlast h1e h2e
  have hv0 : ¬(v < 0) := by
    have hz : epochEntry.tai = 5113 * 86400 + 10 := rfl
    rw [hz] at hvz
    linarith
  have hfp : futureProofUnsmear lt (.fin t) = (.fin v, .fin v) := by
    rw [show lt = ⟨e0 :: b :: rest⟩ from by cases lt; simp [← hes]]
    simp only [futureProofUnsmear]
    rw [if_pos h2e, hvu]
  have hfs : futureProofSmearTai lt (.fin v) = (.fin t, .fin t) := by
    rw [show lt = ⟨e0 :: b :: rest⟩ from by cases lt; simp [← hes]]
    simp only [futureProofSmearTai, futureProofSmearAt]
    rw [if_neg hv0]
    have hoff : v + 0 = v := by ring
    rw [hoff]
    rw [if_pos hvb, hvs]
  refine ⟨v, ?_, ?_⟩
  · unfold unsmear
    rw [hfp]
    simp
  · unfold smearTai
    rw [hfs]
    simp


/-! ### Scan success and failure for the Smear direction (claim C4) -/

theorem smearLoop_none (q : ℚ) :
    ∀ (rest : List LeapTableEntry) (prev : LeapTableEntry),
      (∀ x ∈ rest, q < x.tai) → smearLoop q prev rest = none
  | [], _, _ => rfl
  | b :: rest, prev, hall => by
    simp only [smearLoop]
    rw [if_neg (not_le.mpr (hall b (by simp)))]
    exact smearLoop_none q rest b (fun x hx => hall x (List.mem_cons_of_mem b hx))

theorem smearLoop_some (q : ℚ) (z : LeapTableEntry) :
    ∀ (rest : List LeapTableEntry) (prev b : LeapTableEntry),
      (prev :: b :: rest).Chain' descRel →
      (b :: rest).getLast? = some z →
      z.tai ≤ q → q ≤ prev.tai →
      ∃ u, smearLoop q prev (b :: rest) = some u := by
  intro rest
  induction rest with
  | nil =>
    intro prev b _ hlast hzq _
    simp only [List.getLast?_singleton, Option.some.injEq] at hlast
    subst hlast
    refine ⟨interpolateTime prev q, ?_⟩
    simp only [smearLoop]
    rw [if_pos hzq]
  | cons b2 rest2 ih =>
    intro prev b hchain hlast hzq hqp
    have hchain2 : (b :: b2 :: rest2).Chain' descRel := (List.chain'_cons.mp hchain).2
    have hlast2 : (b2 :: rest2).getLast? = some z := by
      rw [List.getLast?_cons_cons] at hlast
      exact hlast
    by_cases hbq : b.tai ≤ q
    · refine ⟨interpolateTime prev q, ?_⟩
      simp only [smearLoop]
      rw [if_pos hbq]
    · push_neg at hbq
      obtain ⟨u, hu⟩ := ih b b2 hchain2 hlast2 hzq (le_of_lt hbq)
      refine ⟨u, ?_⟩
      simp only [smearLoop]
      rw [if_neg (not_le.mpr hbq)]
      exact hu

/-! ### Calendar facts used by the Advance evaluation (claims C6, C7) -/

theorem isJustBeforeMonthEnd_mday2 (tm : Tm) (h : tm.tm_mday = 2) :
    isJustBeforeMonthEnd tm = false := by
  unfold isJustBeforeMonthEnd
  rw [h]
  by_cases h1 : tm.tm_hour < 12
  · rw [if_pos h1]
  rw [if_neg h1]
  by_cases h2 : tm.tm_mon = 0
  · rw [if_pos h2]; rfl
  rw [if_neg h2]
  by_cases h3 : tm.tm_mon = 1
  · rw [if_pos h3]
    by_cases h3' : tm.tm_year % 4 = 0 ∧ (tm.tm_year % 100 ≠ 0 ∨ tm.tm_year % 400 = 0)
    · rw [if_pos h3']; rfl
    · rw [if_neg h3']; rfl
  rw [if_neg h3]
  by_cases h4 : tm.tm_mon = 2
  · rw [if_pos h4]; rfl
  rw [if_neg h4]
  by_cases h5 : tm.tm_mon = 3
  · rw [if_pos h5]; rfl
  rw [if_neg h5]
  by_cases h6 : tm.tm_mon = 4
  · rw [if_pos h6]; rfl
  rw [if_neg h6]
  by_cases h7 : tm.tm_mon = 5
  · rw [if_pos h7]; rfl
  rw [if_neg h7]
  by_cases h8 : tm.tm_mon = 6
  · rw [if_pos h8]; rfl
  rw [if_neg h8]
  by_cases h9 : tm.tm_mon = 7
  · rw [if_pos h9]; rfl
  rw [if_neg h9]
  by_cases h10 : tm.tm_mon = 8
  · rw [if_pos h10]; rfl
  rw [if_neg h10]
  by_cases h11 : tm.tm_mon = 9
  · rw [if_pos h11]; rfl
  rw [if_neg h11]
  by_cases h12 : tm.tm_mon = 10
  · rw [if_pos h12]; rfl
  rw [if_neg h12]
  by_cases h13 : tm.tm_mon = 11
  · rw [if_pos h13]; rfl
  rw [if_neg h13]

theorem nextDay_eq_first {c : Civil} (hWF : c.WF) (h1 : (nextDay c).d = 1) :
    (c.m < 12 ∧ nextDay c = ⟨c.y, c.m + 1, 1⟩) ∨ (c.m = 12 ∧ nextDay c = ⟨c.y + 1, 1, 1⟩) := by
  obtain ⟨hm1, hm2, hd1, _⟩ := hWF
  unfold nextDay at h1 ⊢
  split_ifs at h1 ⊢ with hA hB
  · exfalso
    simp only at h1
    omega
  · exact Or.inl ⟨hB, rfl⟩
  · exact Or.inr ⟨by omega, rfl⟩

theorem nextDay_of_first {y m : Int} (h : Civil.WF ⟨y, m, 1⟩) :
    nextDay ⟨y, m, 1⟩ = ⟨y, m, 2⟩ := by
  unfold nextDay
  have := monthLength_ge_28 y m
  rw [if_pos (show (Civil.mk y m 1).d < monthLength (Civil.mk y m 1).y (Civil.mk y m 1).m by
    simp only
    omega)]
  rfl

theorem jdnToTime_add_days (j k : Int) : jdnToTime (j + k) = jdnToTime j + 86400 * k := by
  rw [jdnToTime_eq, jdnToTime_eq]
  push_cast
  ring

theorem toTM_jdnToTime (j : Int) :
    toTM (jdnToTime j) =
      ⟨(civilOfDays (j - 2440588)).y - 1900, (civilOfDays (j - 2440588)).m - 1,
        (civilOfDays (j - 2440588)).d, 12⟩ := by
  have h := toTM_jdnToTime_add j 0 (by norm_num) (by norm_num)
  rw [add_zero] at h
  rw [h]
  norm_num


/-! ### Concrete civil-date evaluation, in kernel-sized chunks -/

theorem civilFwdAux_add (m n : Nat) : ∀ c : Civil, civilFwdAux (m + n) c = civilFwdAux n (civilFwdAux m c) := by
  induction m with
  | zero => intro c; rw [Nat.zero_add]; rfl
  | succ k ih =>
    intro c
    obtain ⟨y, mo, d⟩ := c
    rw [show k + 1 + n = k + n + 1 from by omega]
    show civilFwdAux (k + n) (nextDay ⟨y, mo, d⟩) = civilFwdAux n (civilFwdAux k (nextDay ⟨y, mo, d⟩))
    rw [ih]

theorem civilFwd_chunk_eq (a b : Nat) (c1 c2 : Civil) (h1 : civilFwd a = c1)
    (h2 : civilFwdAux b c1 = c2) : civilFwd (a + b) = c2 := by
  rw [civilFwd, civilFwdAux_add, ← civilFwd, h1, h2]

set_option maxRecDepth 4000 in
theorem dayv_500 : civilFwd 500 = ⟨1971, 5, 16⟩ := by decide

theorem dayv_1000 : civilFwd 1000 = ⟨1972, 9, 27⟩ :=
  civilFwd_chunk_eq 500 500 ⟨1971, 5, 16⟩ ⟨1972, 9, 27⟩ dayv_500 (by set_option maxRecDepth 4000 in decide)

theorem dayv_1500 : civilFwd 1500 = ⟨1974, 2, 9⟩ :=
  civilFwd_chunk_eq 1000 500 ⟨1972, 9, 27⟩ ⟨1974, 2, 9⟩ dayv_1000 (by set_option maxRecDepth 4000 in decide)

theorem dayv_2000 : civilFwd 2000 = ⟨1975, 6, 24⟩ :=
  civilFwd_chunk_eq 1500 500 ⟨1974, 2, 9⟩ ⟨1975, 6, 24⟩ dayv_1500 (by set_option maxRecDepth 4000 in decide)

theorem dayv_2500 : civilFwd 2500 = ⟨1976, 11, 5⟩ :=
  civilFwd_chunk_eq 2000 500 ⟨1975, 6, 24⟩ ⟨1976, 11, 5⟩ dayv_2000 (by set_option maxRecDepth 4000 in decide)

theorem dayv_3000 : civilFwd 3000 = ⟨1978, 3, 20⟩ :=
  civilFwd_chunk_eq 2500 500 ⟨1976, 11, 5⟩ ⟨1978, 3, 20⟩ dayv_2500 (by set_option maxRecDepth 4000 in decide)

theorem dayv_3500 : civilFwd 3500 = ⟨1979, 8, 2⟩ :=
  civilFwd_chunk_eq 3000 500 ⟨1978, 3, 20⟩ ⟨1979, 8, 2⟩ dayv_3000 (by set_option maxRecDepth 4000 in decide)

theorem dayv_4000 : civilFwd 4000 = ⟨1980, 12, 14⟩ :=
  civilFwd_chunk_eq 3500 500 ⟨1979, 8, 2⟩ ⟨1980, 12, 14⟩ dayv_3500 (by set_option maxRecDepth 4000 in decide)

theorem dayv_4500 : civilFwd 4500 = ⟨1982, 4, 28⟩ :=
  civilFwd_chunk_eq 4000 500 ⟨1980, 12, 14⟩ ⟨1982, 4, 28⟩ dayv_4000 (by set_option maxRecDepth 4000 in decide)

theorem dayv_5000 : civilFwd 5000 = ⟨1983, 9, 10⟩ :=
  civilFwd_chunk_eq 4500 500 ⟨1982, 4, 28⟩ ⟨1983, 9, 10⟩ dayv_4500 (by set_option maxRecDepth 4000 in decide)

theorem dayv_5500 : civilFwd 5500 = ⟨1985, 1, 22⟩ :=
  civilFwd_chunk_eq 5000 500 ⟨1983, 9, 10⟩ ⟨1985, 1, 22⟩ dayv_5000 (by set_option maxRecDepth 4000 in decide)

theorem dayv_6000 : civilFwd 6000 = ⟨1986, 6, 6⟩ :=
  civilFwd_chunk_eq 5500 500 ⟨1985, 1, 22⟩ ⟨1986, 6, 6⟩ dayv_5500 (by set_option maxRecDepth 4000 in decide)

theorem dayv_6500 : civilFwd 6500 = ⟨1987, 10, 19⟩ :=
  civilFwd_chunk_eq 6000 500 ⟨1986, 6, 6⟩ ⟨1987, 10, 19⟩ dayv_6000 (by set_option maxRecDepth 4000 in decide)

theorem dayv_7000 : civilFwd 7000 = ⟨1989, 3, 2⟩ :=
  civilFwd_chunk_eq 6500 500 ⟨1987, 10, 19⟩ ⟨1989, 3, 2⟩ dayv_6500 (by set_option maxRecDepth 4000 in decide)

theorem dayv_7500 : civilFwd 7500 = ⟨1990, 7, 15⟩ :=
  civilFwd_chunk_eq 7000 500 ⟨1989, 3, 2⟩ ⟨1990, 7, 15⟩ dayv_7000 (by set_option maxRecDepth 4000 in decide)

theorem dayv_8000 : civilFwd 8000 = ⟨1991, 11, 27⟩ :=
  civilFwd_chunk_eq 7500 500 ⟨1990, 7, 15⟩ ⟨1991, 11, 27⟩ dayv_7500 (by set_option maxRecDepth 4000 in decide)

theorem dayv_8500 : civilFwd 8500 = ⟨1993, 4, 10⟩ :=
  civilFwd_chunk_eq 8000 500 ⟨1991, 11, 27⟩ ⟨1993, 4, 10⟩ dayv_8000 (by set_option maxRecDepth 4000 in decide)

theorem dayv_9000 : civilFwd 9000 = ⟨1994, 8, 23⟩ :=
  civilFwd_chunk_eq 8500 500 ⟨1993, 4, 10⟩ ⟨1994, 8, 23⟩ dayv_8500 (by set_option maxRecDepth 4000 in decide)

theorem dayv_9500 : civilFwd 9500 = ⟨1996, 1, 5⟩ :=
  civilFwd_chunk_eq 9000 500 ⟨1994, 8, 23⟩ ⟨1996, 1, 5⟩ dayv_9000 (by set_option maxRecDepth 4000 in decide)

theorem dayv_10000 : civilFwd 10000 = ⟨1997, 5, 19⟩ :=
  civilFwd_chunk_eq 9500 500 ⟨1996, 1, 5⟩ ⟨1997, 5, 19⟩ dayv_9500 (by set_option maxRecDepth 4000 in decide)

theorem dayv_10500 : civilFwd 10500 = ⟨1998, 10, 1⟩ :=
  civilFwd_chunk_eq 10000 500 ⟨1997, 5, 19⟩ ⟨1998, 10, 1⟩ dayv_10000 (by set_option maxRecDepth 4000 in decide)

theorem dayv_11000 : civilFwd 11000 = ⟨2000, 2, 13⟩ :=
  civilFwd_chunk_eq 10500 500 ⟨1998, 10, 1⟩ ⟨2000, 2, 13⟩ dayv_10500 (by set_option maxRecDepth 4000 in decide)

theorem civ_761 : civilOfDays 761 = ⟨1972, 2, 1⟩ := by
  rw [civilOfDays_nonneg 761 (by norm_num)]
  exact civilFwd_chunk_eq 500 261 ⟨1971, 5, 16⟩ ⟨1972, 2, 1⟩ dayv_500 (by set_option maxRecDepth 4000 in decide)

theorem civ_762 : civilOfDays 762 = ⟨1972, 2, 2⟩ := by
  rw [civilOfDays_nonneg 762 (by norm_num)]
  exact civilFwd_chunk_eq 500 262 ⟨1971, 5, 16⟩ ⟨1972, 2, 2⟩ dayv_500 (by set_option maxRecDepth 4000 in decide)

theorem civ_911 : civilOfDays 911 = ⟨1972, 6, 30⟩ := by
  rw [civilOfDays_nonneg 911 (by norm_num)]
  exact civilFwd_chunk_eq 500 411 ⟨1971, 5, 16⟩ ⟨1972, 6, 30⟩ dayv_500 (by set_option maxRecDepth 4000 in decide)

theorem civ_912 : civilOfDays 912 = ⟨1972, 7, 1⟩ := by
  rw [civilOfDays_nonneg 912 (by norm_num)]
  exact civilFwd_chunk_eq 500 412 ⟨1971, 5, 16⟩ ⟨1972, 7, 1⟩ dayv_500 (by set_option maxRecDepth 4000 in decide)

theorem civ_1825 : civilOfDays 1825 = ⟨1974, 12, 31⟩ := by
  rw [civilOfDays_nonneg 1825 (by norm_num)]
  exact civilFwd_chunk_eq 1500 325 ⟨1974, 2, 9⟩ ⟨1974, 12, 31⟩ dayv_1500 (by set_option maxRecDepth 4000 in decide)

theorem civ_1826 : civilOfDays 1826 = ⟨1975, 1, 1⟩ := by
  rw [civilOfDays_nonneg 1826 (by norm_num)]
  exact civilFwd_chunk_eq 1500 326 ⟨1974, 2, 9⟩ ⟨1975, 1, 1⟩ dayv_1500 (by set_option maxRecDepth 4000 in decide)

theorem civ_3683 : civilOfDays 3683 = ⟨1980, 2, 1⟩ := by
  rw [civilOfDays_nonneg 3683 (by norm_num)]
  exact civilFwd_chunk_eq 3500 183 ⟨1979, 8, 2⟩ ⟨1980, 2, 1⟩ dayv_3500 (by set_option maxRecDepth 4000 in decide)

theorem civ_11016 : civilOfDays 11016 = ⟨2000, 2, 29⟩ := by
  rw [civilOfDays_nonneg 11016 (by norm_num)]
  exact civilFwd_chunk_eq 11000 16 ⟨2000, 2, 13⟩ ⟨2000, 2, 29⟩ dayv_11000 (by set_option maxRecDepth 4000 in decide)

theorem civ_11017 : civilOfDays 11017 = ⟨2000, 3, 1⟩ := by
  rw [civilOfDays_nonneg 11017 (by norm_num)]
  exact civilFwd_chunk_eq 11000 17 ⟨2000, 2, 13⟩ ⟨2000, 3, 1⟩ dayv_11000 (by set_option maxRecDepth 4000 in decide)


theorem mday_helper (e : Int) (c : Civil) (hc : civilOfDays (e + 2 - 2440588) = c) :
    (toTM (jdnToTime (e + 1) + 86400)).tm_mday = c.d := by
  have h1 : jdnToTime (e + 1) + 86400 = jdnToTime (e + 2) := by
    rw [jdnToTime_eq, jdnToTime_eq]
    push_cast
    ring
  rw [h1, toTM_jdnToTime, hc]

theorem toTM_noon (j : Int) (c : Civil) (hc : civilOfDays (j - 2440588) = c) :
    toTM (jdnToTime j) = ⟨c.y - 1900, c.m - 1, c.d, 12⟩ := by
  rw [toTM_jdnToTime, hc]


/-! ### Concrete table constructions -/

theorem newLeapTableFromProto_noleaps (e : Int) (hmin : kMinJdn ≤ e) (hmax : e ≤ kMaxJdn)
    (hmday : (toTM (jdnToTime (e + 1) + 86400)).tm_mday = 1) :
    newLeapTableFromProto ⟨[], [], e⟩ =
      some ⟨[⟨jdnToTime (e + 1), taiModernUtcEpoch + (jdnToTime (e + 1) - modernUtcEpoch), 0⟩,
             ⟨modernUtcEpoch, taiModernUtcEpoch, 0⟩]⟩ := by
  have hlt : modernUtcEpoch < jdnToTime (e + 1) :=
    modernUtcEpoch_lt_jdnToTime (by unfold kMinJdn at hmin; omega)
  unfold newLeapTableFromProto
  rw [if_neg (by simp only [kMinJdn, kMaxJdn] at hmin hmax ⊢; omega : ¬((⟨[], [], e⟩ : LeapTableProto).end_jdn < kMinJdn ∨ kMaxJdn < (⟨[], [], e⟩ : LeapTableProto).end_jdn))]
  rw [if_neg (by simpa using hmday)]
  rw [if_neg (by simp)]
  rw [if_neg (by simp)]
  show buildFromSorted (jdnToTime (e + 1)) (sortEntries (unsortedEntries ⟨[], [], e⟩)) = _
  have hsort : sortEntries (unsortedEntries ⟨[], [], e⟩) =
      [⟨jdnToTime (e + 1), 0, 0⟩, ⟨modernUtcEpoch, taiModernUtcEpoch, 0⟩] := by
    simp only [unsortedEntries, leapPairEntries, List.flatMap_nil, List.nil_append,
      sortEntries, insertEntry]
    rw [if_pos hlt]
  rw [hsort]
  simp only [buildFromSorted]
  rw [if_neg (by simp)]
  rw [if_neg (by simp only [List.getLastD]; exact lt_irrefl _)]
  simp only [List.reverse_cons, List.reverse_nil, List.nil_append, List.cons_append,
    List.singleton_append]
  simp only [fillTai]
  rw [if_neg (ne_of_lt hlt).symm]
  rw [if_neg (by simp)]
  simp only [Int.cast_zero, add_zero]
  rfl


theorem evalTable_2441347 :
    newLeapTableFromProto ⟨[], [], 2441347⟩ =
      some ⟨[⟨jdnToTime 2441348, taiModernUtcEpoch + (jdnToTime 2441348 - modernUtcEpoch), 0⟩,
             ⟨modernUtcEpoch, taiModernUtcEpoch, 0⟩]⟩ := by
  have h := newLeapTableFromProto_noleaps 2441347 (by norm_num [kMinJdn]) (by norm_num [kMaxJdn])
    (by rw [mday_helper 2441347 ⟨1972, 2, 1⟩ (by norm_num; exact civ_761)])
  rw [show (2441347 : Int) + 1 = 2441348 from by norm_num] at h
  exact h

theorem evalTable_2442412 :
    newLeapTableFromProto ⟨[], [], 2442412⟩ =
      some ⟨[⟨jdnToTime 2442413, taiModernUtcEpoch + (jdnToTime 2442413 - modernUtcEpoch), 0⟩,
             ⟨modernUtcEpoch, taiModernUtcEpoch, 0⟩]⟩ := by
  have h := newLeapTableFromProto_noleaps 2442412 (by norm_num [kMinJdn]) (by norm_num [kMaxJdn])
    (by rw [mday_helper 2442412 ⟨1975, 1, 1⟩ (by norm_num; exact civ_1826)])
  rw [show (2442412 : Int) + 1 = 2442413 from by norm_num] at h
  exact h

theorem evalTable_2444269 :
    newLeapTableFromProto ⟨[], [], 2444269⟩ =
      some ⟨[⟨jdnToTime 2444270, taiModernUtcEpoch + (jdnToTime 2444270 - modernUtcEpoch), 0⟩,
             ⟨modernUtcEpoch, taiModernUtcEpoch, 0⟩]⟩ := by
  have h := newLeapTableFromProto_noleaps 2444269 (by norm_num [kMinJdn]) (by norm_num [kMaxJdn])
    (by rw [mday_helper 2444269 ⟨1980, 2, 1⟩ (by norm_num; exact civ_3683)])
  rw [show (2444269 : Int) + 1 = 2444270 from by norm_num] at h
  exact h

theorem evalTable_2451603 :
    newLeapTableFromProto ⟨[], [], 2451603⟩ =
      some ⟨[⟨jdnToTime 2451604, taiModernUtcEpoch + (jdnToTime 2451604 - modernUtcEpoch), 0⟩,
             ⟨modernUtcEpoch, taiModernUtcEpoch, 0⟩]⟩ := by
  have h := newLeapTableFromProto_noleaps 2451603 (by norm_num [kMinJdn]) (by norm_num [kMaxJdn])
    (by rw [mday_helper 2451603 ⟨2000, 3, 1⟩ (by norm_num; exact civ_11017)])
  rw [show (2451603 : Int) + 1 = 2451604 from by norm_num] at h
  exact h

theorem evalTable_oneLeap :
    newLeapTableFromProto ⟨[2441499], [], 2442412⟩ =
      some ⟨[⟨157723200, 536414411, 0⟩, ⟨78840000, 457531211, 1⟩,
             ⟨78753600, 457444810, 0⟩, ⟨63072000, 441763210, 0⟩]⟩ := by
  have h912 : toTM (78840000 : ℚ) = ⟨72, 6, 1, 12⟩ := by
    rw [show (78840000 : ℚ) = jdnToTime 2441500 from by norm_num [jdnToTime],
      toTM_noon 2441500 ⟨1972, 7, 1⟩ (by norm_num; exact civ_912)]
    rfl
  have h911 : toTM (78753600 : ℚ) = ⟨72, 5, 30, 12⟩ := by
    rw [show (78753600 : ℚ) = jdnToTime 2441499 from by norm_num [jdnToTime],
      toTM_noon 2441499 ⟨1972, 6, 30⟩ (by norm_num; exact civ_911)]
    rfl
  have hm : (toTM (jdnToTime (2442412 + 1) + 86400)).tm_mday = 1 := by
    rw [mday_helper 2442412 ⟨1975, 1, 1⟩ (by norm_num; exact civ_1826)]
  unfold newLeapTableFromProto
  rw [if_neg (by norm_num [kMinJdn, kMaxJdn])]
  rw [if_neg (by simpa using hm)]
  rw [if_neg (by simp [kMinJdn, kMaxJdn])]
  rw [if_neg (by simp)]
  norm_num [unsortedEntries, leapPairEntries, sortEntries, insertEntry, jdnToTime,
    modernUtcEpoch, taiModernUtcEpoch, buildFromSorted, List.getLastD, fillTai,
    h912, h911, List.reverse_cons]



/-! ### Claim C8: saturating duration arithmetic -/

/-- C8: Duration addition saturates at infinity instead of overflowing:
Seconds(INT64_MAX) + Seconds(1) is InfiniteDuration(), and
InfiniteDuration() + (-InfiniteDuration()) is InfiniteDuration(). -/
theorem c8_saturating_add :
    satAdd (satSeconds (2 ^ 63 - 1)) (satSeconds 1) = satInfiniteDuration ∧
    satAdd satInfiniteDuration (satNeg satInfiniteDuration) = satInfiniteDuration := by
  constructor
  · show satAdd (.fin ((2 ^ 63 - 1) * ticksPerSecond)) (.fin (1 * ticksPerSecond)) = _
    simp only [satAdd, satInfiniteDuration]
    rw [if_pos (by norm_num [satMaxTicks, ticksPerSecond])]
  · rfl

/-! ### Claim C9: timescale label substitution in FormatTime -/

/-- C9: for every finite TaiTime or GpsTime and every format string, FormatTime
preprocesses the format exactly as the specification describes: each unescaped
percent-Z becomes the timescale label (TAI or GPST) while an escaped
percent-percent-Z is passed through literally, and the result is handed to the
underlying formatter together with the Unix-shifted time. -/
theorem c9_format_zone (format : List Char) (q : ℚ) :
    formatTimeTai format (.fin q) =
      .viaFormatter (zoneSubstSpec "TAI".toList format) (toUnixTimeTai q) ∧
    formatTimeGps format (.fin q) =
      .viaFormatter (zoneSubstSpec "GPST".toList format) (toUnixTimeGps q) := by
  constructor
  · show FormatResult.viaFormatter (substituteZone "TAI".toList false format) _ = _
    rw [substituteZone_false_eq_spec]
  · show FormatResult.viaFormatter (substituteZone "GPST".toList false format) _ = _
    rw [substituteZone_false_eq_spec]

/-! ### Claim C10: a leap at end_jdn is rejected -/

/-- C10: whenever some positive or negative leap JDN equals end_jdn, so that
the leap's smear-end noon coincides with the expiration, NewLeapTableFromProto
fails, although such a leap JDN is not later than end_jdn. -/
theorem c10_leap_at_end_jdn_rejected (p : LeapTableProto)
    (hj : p.end_jdn ∈ p.positive_leaps ∨ p.end_jdn ∈ p.negative_leaps) :
    newLeapTableFromProto p = none := by
  cases hh : newLeapTableFromProto p with
  | none => rfl
  | some lt =>
    exfalso
    have inv := construct_inv hh
    have hX : ((jdnToTime (p.end_jdn + 1), (0 : Int)) : ℚ × Int) ∈ (unsortedEntries p).map skel :=
      List.mem_map.mpr ⟨⟨jdnToTime (p.end_jdn + 1), 0, 0⟩, by
        unfold unsortedEntries
        exact List.mem_cons_self _ _, rfl⟩
    have hL : ∃ s : Int, s ≠ 0 ∧
        ((jdnToTime (p.end_jdn + 1), s) : ℚ × Int) ∈ (unsortedEntries p).map skel := by
      rcases hj with hj | hj
      · refine ⟨1, by norm_num, List.mem_map.mpr ⟨⟨jdnToTime (p.end_jdn + 1), 0, 1⟩, ?_, rfl⟩⟩
        unfold unsortedEntries
        exact List.mem_cons_of_mem _ (List.mem_append.mpr (Or.inl (List.mem_append.mpr (Or.inl
          (List.mem_flatMap.mpr ⟨p.end_jdn, hj, by simp [leapPairEntries]⟩)))))
      · refine ⟨-1, by norm_num, List.mem_map.mpr ⟨⟨jdnToTime (p.end_jdn + 1), 0, -1⟩, ?_, rfl⟩⟩
        unfold unsortedEntries
        exact List.mem_cons_of_mem _ (List.mem_append.mpr (Or.inl (List.mem_append.mpr (Or.inr
          (List.mem_flatMap.mpr ⟨p.end_jdn, hj, by simp [leapPairEntries]⟩)))))
    obtain ⟨s, hs, hLmem⟩ := hL
    have hX2 : ((jdnToTime (p.end_jdn + 1), (0 : Int)) : ℚ × Int) ∈ lt.entries.map skel :=
      inv.skelPerm.mem_iff.mpr hX
    have hL2 : ((jdnToTime (p.end_jdn + 1), s) : ℚ × Int) ∈ lt.entries.map skel :=
      inv.skelPerm.mem_iff.mpr hLmem
    obtain ⟨e1, he1, hsk1⟩ := List.mem_map.mp hX2
    obtain ⟨e2, he2, hsk2⟩ := List.mem_map.mp hL2
    have hne : e1 ≠ e2 := by
      intro hcon
      rw [hcon, hsk2] at hsk1
      exact hs (by simpa using congrArg Prod.snd hsk1)
    have hpw : lt.entries.Pairwise (fun a b => a.utc ≠ b.utc) := by
      haveI : IsTrans LeapTableEntry (fun a b => b.utc < a.utc) :=
        ⟨fun _ _ _ h1 h2 => lt_trans h2 h1⟩
      have hp := List.chain'_iff_pairwise.mp (inv.chain.imp (fun a b hab => hab.2.1))
      exact hp.imp (fun hab => ne_of_gt hab)
    have hsym : Symmetric (fun a b : LeapTableEntry => a.utc ≠ b.utc) :=
      fun a b hab => hab.symm
    have := List.Pairwise.forall hsym hpw he1 he2 hne
    have hu1 : e1.utc = jdnToTime (p.end_jdn + 1) := congrArg Prod.fst hsk1
    have hu2 : e2.utc = jdnToTime (p.end_jdn + 1) := congrArg Prod.fst hsk2
    exact this (hu1.trans hu2.symm)

/-- Witness for C10: the one-leap catalog whose positive leap equals end_jdn
is rejected. -/
theorem c10_witness : newLeapTableFromProto ⟨[2442412], [], 2442412⟩ = none :=
  c10_leap_at_end_jdn_rejected ⟨[2442412], [], 2442412⟩ (Or.inl (by simp))

/-! ### Claim C2: the month-end validation of end_jdn -/

/-- C2 counterexample: NewLeapTableFromProto accepts end_jdn 2442412 although
the day after end_jdn (JDN 2442413, which is 1974-12-31) is not the first day
of a month, contradicting the claim as stated. -/
theorem c2_counterexample :
    (newLeapTableFromProto ⟨[], [], 2442412⟩).isSome = true ∧
    (toTM (jdnToTime (2442412 + 1))).tm_mday ≠ 1 := by
  constructor
  · rw [evalTable_2442412]
    rfl
  · rw [show ((2442412 : Int) + 1) = 2442413 from by norm_num,
      toTM_noon 2442413 ⟨1974, 12, 31⟩ (by norm_num; exact civ_1825)]
    norm_num

/-- C2 amended: construction succeeds only if the day after end_jdn + 1 (not
after end_jdn) is the first of a month, so the expiration, which is noon of
day end_jdn + 1, is a month-end noon rather than a first-of-month noon. -/
theorem c2_amended (p : LeapTableProto) :
    (∀ lt, newLeapTableFromProto p = some lt →
      lt.expiration = jdnToTime (p.end_jdn + 1) ∧
      (toTM (jdnToTime (p.end_jdn + 1) + 86400)).tm_mday = 1) ∧
    ((toTM (jdnToTime (p.end_jdn + 1) + 86400)).tm_mday ≠ 1 →
      newLeapTableFromProto p = none) := by
  constructor
  · intro lt h
    have inv := construct_inv h
    exact ⟨inv.headUtc, inv.mday1⟩
  · intro hm
    unfold newLeapTableFromProto
    by_cases h1 : p.end_jdn < kMinJdn ∨ kMaxJdn < p.end_jdn
    · rw [if_pos h1]
    · rw [if_neg h1, if_pos hm]

/-- Witness for the amended C2: the accepted catalog with end_jdn 2442412 has
expiration noon of JDN 2442413 with a first-of-month day after it, and
end_jdn 2441348 (whose day end_jdn + 2 is 1972-02-02) is rejected. -/
theorem c2_amended_witness :
    ((⟨[⟨jdnToTime 2442413, taiModernUtcEpoch + (jdnToTime 2442413 - modernUtcEpoch), 0⟩,
        ⟨modernUtcEpoch, taiModernUtcEpoch, 0⟩]⟩ : LeapTable).expiration =
        jdnToTime ((2442412 : Int) + 1) ∧
      (toTM (jdnToTime ((2442412 : Int) + 1) + 86400)).tm_mday = 1) ∧
    newLeapTableFromProto ⟨[], [], 2441348⟩ = none := by
  constructor
  · exact (c2_amended ⟨[], [], 2442412⟩).1 _ evalTable_2442412
  · exact (c2_amended ⟨[], [], 2441348⟩).2
      (by rw [mday_helper 2441348 ⟨1972, 2, 2⟩ (by norm_num; exact civ_762)]; norm_num)

/-! ### Claim C3: the accepted JDN range -/

/-- C3 counterexample: end_jdn 2441347 is accepted by NewLeapTableFromProto
although it lies outside the claimed range starting at 2441348. -/
theorem c3_counterexample :
    (newLeapTableFromProto ⟨[], [], 2441347⟩).isSome = true ∧ (2441347 : Int) < 2441348 := by
  refine ⟨?_, by norm_num⟩
  rw [evalTable_2441347]
  rfl

/-- C3 amended: the accepted range of end_jdn and of every leap JDN is
[kMinJdn, kMaxJdn] = [2441347, 5373483]: construction fails whenever end_jdn
or any leap JDN lies outside it, and success implies every such value lies
inside it. -/
theorem c3_amended (p : LeapTableProto) :
    ((p.end_jdn < kMinJdn ∨ kMaxJdn < p.end_jdn) → newLeapTableFromProto p = none) ∧
    (∀ j, (j ∈ p.positive_leaps ∨ j ∈ p.negative_leaps) → (j < kMinJdn ∨ kMaxJdn < j) →
      newLeapTableFromProto p = none) ∧
    (∀ lt, newLeapTableFromProto p = some lt →
      (kMinJdn ≤ p.end_jdn ∧ p.end_jdn ≤ kMaxJdn) ∧
      ∀ j, (j ∈ p.positive_leaps ∨ j ∈ p.negative_leaps) → kMinJdn ≤ j ∧ j ≤ kMaxJdn) := by
  refine ⟨?_, ?_, ?_⟩
  · intro h1
    unfold newLeapTableFromProto
    rw [if_pos h1]
  · intro j hj hout
    unfold newLeapTableFromProto
    split_ifs with h1 h2 h3 h4
    · rfl
    · rfl
    · rfl
    · rfl
    · exfalso
      rcases hj with hj | hj
      · exact h3 (by rw [List.any_eq_true]; exact ⟨j, hj,
          by rcases hout with h | h <;> simp [h]⟩)
      · exact h4 (by rw [List.any_eq_true]; exact ⟨j, hj,
          by rcases hout with h | h <;> simp [h]⟩)
  · intro lt h
    have inv := construct_inv h
    refine ⟨⟨inv.endMin, inv.endMax⟩, ?_⟩
    intro j hj
    rcases hj with hj | hj
    · exact inv.posRange j hj
    · exact inv.negRange j hj

/-- Witness for the amended C3: end_jdn 0 is rejected, a leap JDN 9999999 is
rejected even with an in-range end_jdn, and the accepted catalog with end_jdn
2441347 satisfies the range bounds. -/
theorem c3_amended_witness :
    newLeapTableFromProto ⟨[], [], 0⟩ = none ∧
    newLeapTableFromProto ⟨[9999999], [], 2441347⟩ = none ∧
    ((kMinJdn ≤ (2441347 : Int) ∧ (2441347 : Int) ≤ kMaxJdn) ∧
      ∀ j, (j ∈ ([] : List Int) ∨ j ∈ ([] : List Int)) → kMinJdn ≤ j ∧ j ≤ kMaxJdn) :=
  ⟨(c3_amended ⟨[], [], 0⟩).1 (Or.inl (by norm_num [kMinJdn])),
   (c3_amended ⟨[9999999], [], 2441347⟩).2.1 9999999 (Or.inl (by simp))
     (Or.inr (by norm_num [kMaxJdn])),
   (c3_amended ⟨[], [], 2441347⟩).2.2 _ evalTable_2441347⟩



/-! ### Claim C4: availability of Smear -/

theorem smearAt_some (off : ℚ) {p : LeapTableProto} {lt : LeapTable}
    (h : newLeapTableFromProto p = some lt) (q : ℚ) (h0 : 0 ≤ q)
    (h1 : taiModernUtcEpoch ≤ q + off) (h2 : q + off ≤ lt.expirationTai) :
    ∃ u : ℚ, futureProofSmearAt off lt (.fin q) = (.fin u, .fin u) := by
  have inv := construct_inv h
  obtain ⟨e0, b, rest, hes⟩ := entries_decompose inv
  have hchain : (e0 :: b :: rest).Chain' descRel := by rw [← hes]; exact inv.chain
  have hlast : (b :: rest).getLast? = some epochEntry := by
    have hl := inv.lastEq
    rw [hes, List.getLast?_cons_cons] at hl
    exact hl
  have hexp : lt.expirationTai = e0.tai := by
    unfold LeapTable.expirationTai
    rw [hes]
    rfl
  obtain ⟨u, hu⟩ := smearLoop_some (q + off) epochEntry rest e0 b hchain hlast h1 (hexp ▸ h2)
  refine ⟨u, ?_⟩
  rw [show lt = ⟨e0 :: b :: rest⟩ from by cases lt; simp [← hes]]
  simp only [futureProofSmearAt]
  rw [if_neg (not_lt.mpr h0), if_pos (show q + off ≤ e0.tai from hexp ▸ h2), hu]

theorem smearAt_none_low (off : ℚ) {p : LeapTableProto} {lt : LeapTable}
    (h : newLeapTableFromProto p = some lt) (q : ℚ) (h0 : 0 ≤ q)
    (hlow : q + off < taiModernUtcEpoch) :
    futureProofSmearAt off lt (.fin q) = (.negInf, .posInf) := by
  have inv := construct_inv h
  obtain ⟨e0, b, rest, hes⟩ := entries_decompose inv
  have hchain : (e0 :: b :: rest).Chain' descRel := by rw [← hes]; exact inv.chain
  have hlast : (b :: rest).getLast? = some epochEntry := by
    have hl := inv.lastEq
    rw [hes, List.getLast?_cons_cons] at hl
    exact hl
  have htail : ∀ x ∈ b :: rest, q + off < x.tai := by
    intro x hx
    have hpw := chain'_pairwise_tai (List.chain'_cons.mp hchain).2
    rcases pairwise_getLast?_cases hpw hlast x hx with rfl | hr
    · exact hlow
    · exact lt_trans hlow hr
  have hloop := smearLoop_none (q + off) (b :: rest) e0 htail
  have hfront : q + off ≤ e0.tai := by
    have hd : descRel e0 b := (List.chain'_cons.mp hchain).1
    exact le_of_lt (lt_trans (htail b (by simp)) (descRel_tai_lt hd))
  rw [show lt = ⟨e0 :: b :: rest⟩ from by cases lt; simp [← hes]]
  simp only [futureProofSmearAt]
  rw [if_neg (not_lt.mpr h0), if_pos hfront, hloop]

/-- C4 counterexample: for the table with end_jdn 2444269 (expiring after the
GPS epoch), the finite GpsTime one second before the GPS epoch has a TAI
equivalent inside [E(n-1).tai, E0.tai], yet Smear returns unavailable,
because the implementation first rejects any input before its own timescale
epoch. -/
theorem c4_counterexample :
    ∃ lt, newLeapTableFromProto ⟨[], [], 2444269⟩ = some lt ∧
      taiModernUtcEpoch ≤ (-1 : ℚ) + taiOffsetGps ∧
      (-1 : ℚ) + taiOffsetGps ≤ lt.expirationTai ∧
      smearGps lt (.fin (-1)) = none := by
  refine ⟨_, evalTable_2444269, by norm_num [taiModernUtcEpoch, taiOffsetGps], ?_, ?_⟩
  · norm_num [LeapTable.expirationTai, List.headI, taiOffsetGps, taiModernUtcEpoch,
      jdnToTime, modernUtcEpoch]
  · unfold smearGps futureProofSmearGps
    simp only [futureProofSmearAt]
    rw [if_pos (by norm_num : (-1 : ℚ) < 0)]
    simp

/-- C4 amended: Smear of a finite time first rejects inputs before the input
timescale's own epoch (0 in that timescale), then converts to TAI; a TAI
input is smeared successfully whenever its value lies in
[E(n-1).tai, E0.tai], and is unavailable below that range; a GPS input is
smeared successfully whenever it is nonnegative and its TAI equivalent lies
in that range, but every negative GPS input is unavailable regardless of its
TAI equivalent. -/
theorem c4_amended (p : LeapTableProto) (lt : LeapTable)
    (h : newLeapTableFromProto p = some lt) :
    (∀ q : ℚ, q < taiModernUtcEpoch → smearTai lt (.fin q) = none) ∧
    (∀ q : ℚ, taiModernUtcEpoch ≤ q → q ≤ lt.expirationTai →
      ∃ u : ℚ, smearTai lt (.fin q) = some (.fin u)) ∧
    (∀ q : ℚ, q < 0 → smearGps lt (.fin q) = none) ∧
    (∀ q : ℚ, 0 ≤ q → taiModernUtcEpoch ≤ q + taiOffsetGps →
      q + taiOffsetGps ≤ lt.expirationTai →
      ∃ u : ℚ, smearGps lt (.fin q) = some (.fin u)) := by
  refine ⟨?_, ?_, ?_, ?_⟩
  · intro q hq
    simp only [smearTai, futureProofSmearTai]
    by_cases h0 : q < 0
    · simp only [futureProofSmearAt]
      rw [if_pos h0]
      simp
    · rw [smearAt_none_low 0 h q (not_lt.mp h0) (by rw [add_zero]; exact hq)]
      simp
  · intro q h1 h2
    obtain ⟨u, hu⟩ := smearAt_some 0 h q
      (le_trans (by norm_num [taiModernUtcEpoch]) h1)
      (by rw [add_zero]; exact h1) (by rw [add_zero]; exact h2)
    refine ⟨u, ?_⟩
    simp only [smearTai, futureProofSmearTai]
    rw [hu]
    simp
  · intro q hq
    simp only [smearGps, futureProofSmearGps, futureProofSmearAt]
    rw [if_pos hq]
    simp
  · intro q h0 h1 h2
    obtain ⟨u, hu⟩ := smearAt_some taiOffsetGps h q h0 h1 h2
    refine ⟨u, ?_⟩
    simp only [smearGps, futureProofSmearGps]
    rw [hu]
    simp

/-- Witness for the amended C4: on the table with end_jdn 2444269, Smear
succeeds on the TAI time of the modern UTC epoch and is unavailable on the
GpsTime one second before the GPS epoch. -/
theorem c4_amended_witness :
    (∃ u : ℚ, smearTai ⟨[⟨jdnToTime 2444270,
        taiModernUtcEpoch + (jdnToTime 2444270 - modernUtcEpoch), 0⟩,
        ⟨modernUtcEpoch, taiModernUtcEpoch, 0⟩]⟩ (.fin 441763210) = some (.fin u)) ∧
    smearGps ⟨[⟨jdnToTime 2444270,
        taiModernUtcEpoch + (jdnToTime 2444270 - modernUtcEpoch), 0⟩,
        ⟨modernUtcEpoch, taiModernUtcEpoch, 0⟩]⟩ (.fin (-1)) = none := by
  have h := c4_amended ⟨[], [], 2444269⟩ _ evalTable_2444269
  exact ⟨h.2.1 441763210 (by norm_num [taiModernUtcEpoch])
    (by norm_num [LeapTable.expirationTai, List.headI, taiModernUtcEpoch,
      jdnToTime, modernUtcEpoch]),
    h.2.2.1 (-1) (by norm_num)⟩

/-- Witness for C1: on the table with one positive leap at JDN 2441499 and
end_jdn 2442412, the round trip holds at the smeared time 78800000, a point
inside the leap's smear window. -/
theorem c1_round_trip_witness :
    ∃ v : ℚ, unsmear ⟨[⟨157723200, 536414411, 0⟩, ⟨78840000, 457531211, 1⟩,
        ⟨78753600, 457444810, 0⟩, ⟨63072000, 441763210, 0⟩]⟩ (.fin 78800000) =
          some (.fin v) ∧
      smearTai ⟨[⟨157723200, 536414411, 0⟩, ⟨78840000, 457531211, 1⟩,
        ⟨78753600, 457444810, 0⟩, ⟨63072000, 441763210, 0⟩]⟩ (.fin v) =
          some (.fin 78800000) :=
  c1_round_trip ⟨[2441499], [], 2442412⟩ _ 78800000 evalTable_oneLeap
    (by norm_num [modernUtcEpoch]) (by norm_num [LeapTable.expiration, List.headI])



/-! ### Claim C6: FutureProofUnsmear 48 hours past the expiration -/

/-- C6: for every constructed table, Unsmear answers exactly at the
expiration, and at expiration + 48 h (UTC) FutureProofUnsmear returns the
open interval (TAI - 1 s, TAI + 1 s) where TAI = Unsmear(expiration) + 48 h:
exactly one month boundary has passed, the input is outside the hypothetical
smear window, so the two hypothetical timelines differ by exactly one leap
second each way. -/
theorem c6_future_proof_48h (p : LeapTableProto) (lt : LeapTable)
    (h : newLeapTableFromProto p = some lt) :
    unsmear lt (.fin lt.expiration) = some (.fin lt.expirationTai) ∧
    futureProofUnsmear lt (.fin (lt.expiration + 172800)) =
      (.fin (lt.expirationTai + 172800 - 1), .fin (lt.expirationTai + 172800 + 1)) := by
  have inv := construct_inv h
  obtain ⟨e0, b, rest, hes⟩ := entries_decompose inv
  have hchain : (e0 :: b :: rest).Chain' descRel := by rw [← hes]; exact inv.chain
  have hd : descRel e0 b := (List.chain'_cons.mp hchain).1
  have hexp : lt.expiration = e0.utc := by
    unfold LeapTable.expiration
    rw [hes]
    rfl
  have hexpT : lt.expirationTai = e0.tai := by
    unfold LeapTable.expirationTai
    rw [hes]
    rfl
  have he0utc : e0.utc = jdnToTime (p.end_jdn + 1) := by
    have h1 := inv.headUtc
    rw [hes] at h1
    exact h1
  have he0sm : e0.smear = 0 := by
    have h1 := inv.headSmear
    rw [hes] at h1
    exact h1
  have hlt : lt = ⟨e0 :: b :: rest⟩ := by cases lt; simp [← hes]
  have hinterp0 : interpolateTai e0 e0.utc = e0.tai := by
    unfold interpolateTai
    rw [if_neg (by rw [he0sm]; norm_num)]
    ring
  constructor
  · rw [hexp, hexpT, hlt]
    simp only [unsmear, futureProofUnsmear]
    rw [if_pos (le_refl e0.utc)]
    simp only [unsmearLoop]
    rw [if_pos (le_of_lt hd.2.1), hinterp0]
    simp
  · -- the calendar step structure past the expiration
    set n0 := p.end_jdn + 1 - 2440588 with hn0def
    have hn0 : 0 ≤ n0 := by
      have := inv.endMin
      unfold kMinJdn at this
      omega
    have hmd : (civilOfDays (n0 + 1)).d = 1 := by
      have hm := inv.mday1
      have h1 : jdnToTime (p.end_jdn + 1) + 86400 = jdnToTime (p.end_jdn + 2) := by
        rw [jdnToTime_eq, jdnToTime_eq]
        push_cast
        ring
      rw [h1, toTM_jdnToTime] at hm
      rw [show n0 + 1 = p.end_jdn + 2 - 2440588 from by rw [hn0def]; ring]
      exact hm
    have hsucc1 : civilOfDays (n0 + 1) = nextDay (civilOfDays n0) := civilOfDays_succ _ hn0
    have hWF0 : (civilOfDays n0).WF := civilOfDays_WF _ hn0
    obtain ⟨Y, M, hnd, hleaps⟩ :
        ∃ Y M, nextDay (civilOfDays n0) = ⟨Y, M, 1⟩ ∧
          (Y - (civilOfDays n0).y) * 12 + (M - (civilOfDays n0).m) = 1 := by
      rcases nextDay_eq_first hWF0 (by rw [← hsucc1]; exact hmd) with ⟨hm12, hnd⟩ | ⟨hm12, hnd⟩
      · exact ⟨(civilOfDays n0).y, (civilOfDays n0).m + 1, hnd, by ring⟩
      · exact ⟨(civilOfDays n0).y + 1, 1, hnd, by rw [hm12]; ring⟩
    have hc1 : civilOfDays (n0 + 1) = ⟨Y, M, 1⟩ := hsucc1.trans hnd
    have hWF1 : Civil.WF ⟨Y, M, 1⟩ := by
      rw [← hc1]
      exact civilOfDays_WF _ (by omega)
    have hc2 : civilOfDays (n0 + 2) = ⟨Y, M, 2⟩ := by
      rw [show n0 + 2 = (n0 + 1) + 1 from by ring, civilOfDays_succ _ (by omega), hc1,
        nextDay_of_first hWF1]
    have hq : e0.utc + 172800 = jdnToTime (p.end_jdn + 3) := by
      rw [he0utc, jdnToTime_eq, jdnToTime_eq]
      push_cast
      ring
    have httm : toTM (e0.utc + 172800) = ⟨Y - 1900, M - 1, 2, 12⟩ := by
      rw [hq, toTM_jdnToTime, show p.end_jdn + 3 - 2440588 = n0 + 2 from by rw [hn0def]; ring,
        hc2]
    have hetm : toTM e0.utc =
        ⟨(civilOfDays n0).y - 1900, (civilOfDays n0).m - 1, (civilOfDays n0).d, 12⟩ := by
      rw [he0utc, toTM_jdnToTime, hn0def]
    have hd2 : daysFromCivil ⟨Y, M, 2⟩ = n0 + 2 := by
      rw [← hc2]
      exact daysFromCivil_civilOfDays _ (by omega)
    have hd3 : daysFromCivil ⟨Y, M, 3⟩ = n0 + 3 := by
      have hstep := daysFromCivil_d_succ Y M 2
      rw [show (2 : Int) + 1 = 3 from rfl] at hstep
      omega
    have hu : fromDateTimeNoon Y M 3 = e0.utc + 259200 := by
      unfold fromDateTimeNoon
      rw [hd3, he0utc, jdnToTime_eq, hn0def]
      push_cast
      ring
    have hleapsQ : ((Y : ℚ) - ((civilOfDays n0).y : ℚ)) * 12 +
        ((M : ℚ) - ((civilOfDays n0).m : ℚ)) = 1 := by
      exact_mod_cast hleaps
    have hfst : interpolateTai (advance e0 (e0.utc + 172800)).1 (e0.utc + 172800) =
        e0.tai + 172800 - 1 := by
      simp only [advance]
      rw [httm, hetm]
      rw [isJustBeforeMonthEnd_mday2 ⟨Y - 1900, M - 1, 2, 12⟩ rfl]
      rw [if_neg Bool.false_ne_true]
      rw [if_neg (by norm_num : ¬((⟨Y - 1900, M - 1, 2, 12⟩ : Tm).tm_mday = 1 ∧
        (⟨Y - 1900, M - 1, 2, 12⟩ : Tm).tm_hour < 12))]
      norm_num
      rw [hu]
      simp only [interpolateTai]
      rw [if_neg (by norm_num)]
      push_cast
      linarith [hleapsQ]
    have hsnd : interpolateTai (advance e0 (e0.utc + 172800)).2 (e0.utc + 172800) =
        e0.tai + 172800 + 1 := by
      simp only [advance]
      rw [httm, hetm]
      rw [isJustBeforeMonthEnd_mday2 ⟨Y - 1900, M - 1, 2, 12⟩ rfl]
      rw [if_neg Bool.false_ne_true]
      rw [if_neg (by norm_num : ¬((⟨Y - 1900, M - 1, 2, 12⟩ : Tm).tm_mday = 1 ∧
        (⟨Y - 1900, M - 1, 2, 12⟩ : Tm).tm_hour < 12))]
      norm_num
      rw [hu]
      simp only [interpolateTai]
      rw [if_neg (by norm_num)]
      push_cast
      linarith [hleapsQ]
    rw [hexp, hexpT, hlt]
    simp only [futureProofUnsmear]
    rw [if_neg (not_le.mpr (by linarith : e0.utc < e0.utc + 172800))]
    rw [hfst, hsnd]


/-- Witness for C6: the two-entry table with end_jdn 2441347 (expiring
1972-01-31 noon). -/
theorem c6_witness :
    unsmear ⟨[⟨jdnToTime 2441348, taiModernUtcEpoch + (jdnToTime 2441348 - modernUtcEpoch), 0⟩,
        ⟨modernUtcEpoch, taiModernUtcEpoch, 0⟩]⟩
      (.fin (⟨[⟨jdnToTime 2441348, taiModernUtcEpoch + (jdnToTime 2441348 - modernUtcEpoch), 0⟩,
        ⟨modernUtcEpoch, taiModernUtcEpoch, 0⟩]⟩ : LeapTable).expiration) =
      some (.fin (⟨[⟨jdnToTime 2441348, taiModernUtcEpoch + (jdnToTime 2441348 - modernUtcEpoch), 0⟩,
        ⟨modernUtcEpoch, taiModernUtcEpoch, 0⟩]⟩ : LeapTable).expirationTai) ∧
    futureProofUnsmear ⟨[⟨jdnToTime 2441348, taiModernUtcEpoch + (jdnToTime 2441348 - modernUtcEpoch), 0⟩,
        ⟨modernUtcEpoch, taiModernUtcEpoch, 0⟩]⟩
      (.fin ((⟨[⟨jdnToTime 2441348, taiModernUtcEpoch + (jdnToTime 2441348 - modernUtcEpoch), 0⟩,
        ⟨modernUtcEpoch, taiModernUtcEpoch, 0⟩]⟩ : LeapTable).expiration + 172800)) =
      (.fin ((⟨[⟨jdnToTime 2441348, taiModernUtcEpoch + (jdnToTime 2441348 - modernUtcEpoch), 0⟩,
        ⟨modernUtcEpoch, taiModernUtcEpoch, 0⟩]⟩ : LeapTable).expirationTai + 172800 - 1),
       .fin ((⟨[⟨jdnToTime 2441348, taiModernUtcEpoch + (jdnToTime 2441348 - modernUtcEpoch), 0⟩,
        ⟨modernUtcEpoch, taiModernUtcEpoch, 0⟩]⟩ : LeapTable).expirationTai + 172800 + 1)) :=
  c6_future_proof_48h ⟨[], [], 2441347⟩ _ evalTable_2441347

/-! ### Claim C7: interval widening through the first hypothetical smear window -/

/-- C7 (code bug): the specification requires the interval returned by
FutureProofUnsmear to have half-width 250 ms at expiration + 6 h, but for the
table with end_jdn 2451603 (expiring noon 2000-02-29) the returned interval
has zero width: IsJustBeforeMonthEnd applies the Gregorian leap-year test to
tm_year (years since 1900, here 100) instead of the calendar year 2000, so
the month-end 2000-02-29 is not recognized and no hypothetical smear window
is opened. -/
theorem c7_code_bug :
    ∃ lt, newLeapTableFromProto ⟨[], [], 2451603⟩ = some lt ∧
      futureProofUnsmear lt (.fin (lt.expiration + 21600)) =
        (.fin (lt.expirationTai + 21600), .fin (lt.expirationTai + 21600)) := by
  have httm : toTM (951847200 : ℚ) = ⟨100, 1, 29, 18⟩ := by
    rw [show (951847200 : ℚ) = jdnToTime 2451604 + 21600 from by norm_num [jdnToTime],
      toTM_jdnToTime_add 2451604 21600 (by norm_num) (by norm_num),
      show (2451604 : Int) - 2440588 = 11016 from by norm_num, civ_11016]
    norm_num
  have hetm : toTM (951825600 : ℚ) = ⟨100, 1, 29, 12⟩ := by
    rw [show (951825600 : ℚ) = jdnToTime 2451604 from by norm_num [jdnToTime],
      toTM_noon 2451604 ⟨2000, 2, 29⟩ (by norm_num; exact civ_11016)]
    rfl
  have hjb : isJustBeforeMonthEnd ⟨100, 1, 29, 18⟩ = false := by decide
  have hdays : daysFromCivil ⟨2000, 2, 30⟩ = 11017 := by decide
  have hu : fromDateTimeNoon 2000 2 30 = (951912000 : ℚ) := by
    unfold fromDateTimeNoon
    rw [hdays]
    norm_num
  refine ⟨_, evalTable_2451603, ?_⟩
  norm_num [LeapTable.expiration, LeapTable.expirationTai, List.headI, jdnToTime,
    modernUtcEpoch, taiModernUtcEpoch]
  simp only [futureProofUnsmear]
  rw [if_neg (by norm_num : ¬((951847200 : ℚ) ≤ 951825600))]
  simp only [advance]
  rw [httm, hetm, hjb]
  rw [if_neg Bool.false_ne_true]
  rw [if_neg (by norm_num : ¬((⟨100, 1, 29, 18⟩ : Tm).tm_mday = 1 ∧
    (⟨100, 1, 29, 18⟩ : Tm).tm_hour < 12))]
  norm_num [interpolateTai, hu]



/-! ### Claim C5: serialization round trip -/

theorem filterMap_skel_factor (f : ℚ × Int → Option Int) :
    ∀ l : List LeapTableEntry,
      (l.map skel).filterMap f = l.filterMap (fun e => f (e.utc, e.smear)) := by
  intro l
  rw [List.filterMap_map]
  rfl

theorem filterMap_pos_flat :
    ∀ l : List Int, (∀ j ∈ l, kMinJdn ≤ j) →
      (l.flatMap (leapPairEntries 1)).filterMap
        (fun e => if e.smear = 1 then some (toJdnInt e.utc - 1) else none) = l
  | [], _ => rfl
  | j :: tl, hr => by
    rw [List.flatMap_cons, List.filterMap_append,
      filterMap_pos_flat tl (fun x hx => hr x (List.mem_cons_of_mem _ hx))]
    have hj : toJdnInt (jdnToTime (j + 1)) = j + 1 :=
      toJdnInt_jdnToTime _ (by
        have := hr j (List.mem_cons_self _ _)
        unfold kMinJdn at this
        omega)
    simp [leapPairEntries, hj]

theorem filterMap_pos_flat_neg (l : List Int) :
    (l.flatMap (leapPairEntries (-1))).filterMap
      (fun e => if e.smear = 1 then some (toJdnInt e.utc - 1) else none) = [] := by
  induction l with
  | nil => rfl
  | cons j tl ih =>
    rw [List.flatMap_cons, List.filterMap_append, ih]
    simp [leapPairEntries]

theorem filterMap_neg_flat :
    ∀ l : List Int, (∀ j ∈ l, kMinJdn ≤ j) →
      (l.flatMap (leapPairEntries (-1))).filterMap
        (fun e => if e.smear = -1 then some (toJdnInt e.utc - 1) else none) = l
  | [], _ => rfl
  | j :: tl, hr => by
    rw [List.flatMap_cons, List.filterMap_append,
      filterMap_neg_flat tl (fun x hx => hr x (List.mem_cons_of_mem _ hx))]
    have hj : toJdnInt (jdnToTime (j + 1)) = j + 1 :=
      toJdnInt_jdnToTime _ (by
        have := hr j (List.mem_cons_self _ _)
        unfold kMinJdn at this
        omega)
    simp [leapPairEntries, hj]

theorem filterMap_neg_flat_pos (l : List Int) :
    (l.flatMap (leapPairEntries 1)).filterMap
      (fun e => if e.smear = -1 then some (toJdnInt e.utc - 1) else none) = [] := by
  induction l with
  | nil => rfl
  | cons j tl ih =>
    rw [List.flatMap_cons, List.filterMap_append, ih]
    simp [leapPairEntries]

theorem toProto_pos_perm {p : LeapTableProto} {lt : LeapTable}
    (h : newLeapTableFromProto p = some lt) :
    (toProto lt).positive_leaps.Perm p.positive_leaps := by
  have inv := construct_inv h
  obtain ⟨e0, b, rest2, hes⟩ := entries_decompose inv
  have he0sm : e0.smear = 0 := by
    have h1 := inv.headSmear
    rw [hes] at h1
    exact h1
  have hfm_unsorted : (unsortedEntries p).filterMap
      (fun e => if e.smear = 1 then some (toJdnInt e.utc - 1) else none) =
      p.positive_leaps := by
    unfold unsortedEntries
    rw [List.filterMap_cons, if_neg (by norm_num)]
    rw [List.filterMap_append, List.filterMap_append]
    rw [filterMap_pos_flat p.positive_leaps (fun j hj => (inv.posRange j hj).1),
      filterMap_pos_flat_neg p.negative_leaps]
    simp
  show ((lt.entries.drop 1).reverse.filterMap
      (fun e => if e.smear = 1 then some (toJdnInt e.utc - 1) else none)).Perm _
  rw [hes]
  refine List.Perm.trans (List.Perm.filterMap _ (List.reverse_perm _)) ?_
  have hcons : ((e0 :: b :: rest2).filterMap
      (fun e => if e.smear = 1 then some (toJdnInt e.utc - 1) else none)) =
      ((b :: rest2).filterMap
      (fun e => if e.smear = 1 then some (toJdnInt e.utc - 1) else none)) := by
    rw [List.filterMap_cons, if_neg (by rw [he0sm]; norm_num)]
  show ((b :: rest2).filterMap
      (fun e => if e.smear = 1 then some (toJdnInt e.utc - 1) else none)).Perm p.positive_leaps
  rw [← hcons, ← hes]
  have hfac1 : lt.entries.filterMap
      (fun e => if e.smear = 1 then some (toJdnInt e.utc - 1) else none) =
      (lt.entries.map skel).filterMap
        (fun s => if s.2 = 1 then some (toJdnInt s.1 - 1) else none) :=
    (filterMap_skel_factor
      (fun s => if s.2 = 1 then some (toJdnInt s.1 - 1) else none) lt.entries).symm
  have hfac2 : ((unsortedEntries p).map skel).filterMap
      (fun s => if s.2 = 1 then some (toJdnInt s.1 - 1) else none) =
      (unsortedEntries p).filterMap
        (fun e => if e.smear = 1 then some (toJdnInt e.utc - 1) else none) :=
    filterMap_skel_factor
      (fun s => if s.2 = 1 then some (toJdnInt s.1 - 1) else none) (unsortedEntries p)
  rw [hfac1]
  refine List.Perm.trans (List.Perm.filterMap _ inv.skelPerm) ?_
  rw [hfac2, hfm_unsorted]

theorem toProto_neg_perm {p : LeapTableProto} {lt : LeapTable}
    (h : newLeapTableFromProto p = some lt) :
    (toProto lt).negative_leaps.Perm p.negative_leaps := by
  have inv := construct_inv h
  obtain ⟨e0, b, rest2, hes⟩ := entries_decompose inv
  have he0sm : e0.smear = 0 := by
    have h1 := inv.headSmear
    rw [hes] at h1
    exact h1
  have hfm_unsorted : (unsortedEntries p).filterMap
      (fun e => if e.smear = -1 then some (toJdnInt e.utc - 1) else none) =
      p.negative_leaps := by
    unfold unsortedEntries
    rw [List.filterMap_cons, if_neg (by norm_num)]
    rw [List.filterMap_append, List.filterMap_append]
    rw [filterMap_neg_flat p.negative_leaps (fun j hj => (inv.negRange j hj).1),
      filterMap_neg_flat_pos p.positive_leaps]
    simp
  show ((lt.entries.drop 1).reverse.filterMap
      (fun e => if e.smear = -1 then some (toJdnInt e.utc - 1) else none)).Perm _
  rw [hes]
  refine List.Perm.trans (List.Perm.filterMap _ (List.reverse_perm _)) ?_
  have hcons : ((e0 :: b :: rest2).filterMap
      (fun e => if e.smear = -1 then some (toJdnInt e.utc - 1) else none)) =
      ((b :: rest2).filterMap
      (fun e => if e.smear = -1 then some (toJdnInt e.utc - 1) else none)) := by
    rw [List.filterMap_cons, if_neg (by rw [he0sm]; norm_num)]
  show ((b :: rest2).filterMap
      (fun e => if e.smear = -1 then some (toJdnInt e.utc - 1) else none)).Perm p.negative_leaps
  rw [← hcons, ← hes]
  have hfac1 : lt.entries.filterMap
      (fun e => if e.smear = -1 then some (toJdnInt e.utc - 1) else none) =
      (lt.entries.map skel).filterMap
        (fun s => if s.2 = -1 then some (toJdnInt s.1 - 1) else none) :=
    (filterMap_skel_factor
      (fun s => if s.2 = -1 then some (toJdnInt s.1 - 1) else none) lt.entries).symm
  have hfac2 : ((unsortedEntries p).map skel).filterMap
      (fun s => if s.2 = -1 then some (toJdnInt s.1 - 1) else none) =
      (unsortedEntries p).filterMap
        (fun e => if e.smear = -1 then some (toJdnInt e.utc - 1) else none) :=
    filterMap_skel_factor
      (fun s => if s.2 = -1 then some (toJdnInt s.1 - 1) else none) (unsortedEntries p)
  rw [hfac1]
  refine List.Perm.trans (List.Perm.filterMap _ inv.skelPerm) ?_
  rw [hfac2, hfm_unsorted]

theorem toProto_end {p : LeapTableProto} {lt : LeapTable}
    (h : newLeapTableFromProto p = some lt) :
    (toProto lt).end_jdn = p.end_jdn := by
  have inv := construct_inv h
  show toJdnInt lt.entries.headI.utc - 1 = p.end_jdn
  rw [inv.headUtc, toJdnInt_jdnToTime _ (by
    have := inv.endMin
    unfold kMinJdn at this
    omega)]
  ring



/-- C5: for every constructible LeapTable, reconstructing from the emitted
catalog succeeds and yields a table whose entries are elementwise equal
(operator== of the C++). -/
theorem c5_serialization_round_trip (p : LeapTableProto) (lt : LeapTable)
    (h : newLeapTableFromProto p = some lt) :
    ∃ lt2, newLeapTableFromProto (toProto lt) = some lt2 ∧ leapTableEq lt2 lt = true := by
  have inv := construct_inv h
  have cs := construct_success h
  have hend := toProto_end h
  have hpos := toProto_pos_perm h
  have hneg := toProto_neg_perm h
  have hperm_unsorted : (unsortedEntries (toProto lt)).Perm (unsortedEntries p) := by
    unfold unsortedEntries
    rw [hend]
    exact List.Perm.cons _ (List.Perm.append
      (List.Perm.append (hpos.flatMap_right _) (hneg.flatMap_right _)) (List.Perm.refl _))
  have hpwlt : lt.entries.Pairwise (fun a b => b.utc < a.utc) := by
    haveI : IsTrans LeapTableEntry (fun a b => b.utc < a.utc) :=
      ⟨fun _ _ _ h1 h2 => lt_trans h2 h1⟩
    exact List.chain'_iff_pairwise.mp (inv.chain.imp (fun a b hab => hab.2.1))
  have hnodup_lt : (lt.entries.map (fun e => e.utc)).Nodup :=
    List.pairwise_map.mpr (hpwlt.imp (fun hab => ne_of_gt hab))
  have hmap_perm : (lt.entries.map (fun e => e.utc)).Perm
      ((unsortedEntries p).map (fun e => e.utc)) := by
    have h1 := inv.skelPerm.map Prod.fst
    rw [List.map_map, List.map_map] at h1
    exact h1
  have hnodup_unsorted : ((unsortedEntries p).map (fun e => e.utc)).Nodup :=
    hmap_perm.nodup_iff.mp hnodup_lt
  have hnodup_unsorted2 : ((unsortedEntries (toProto lt)).map (fun e => e.utc)).Nodup :=
    (hperm_unsorted.map _).nodup_iff.mpr hnodup_unsorted
  have hstrict : ∀ u : List LeapTableEntry, (u.map (fun e => e.utc)).Nodup →
      (sortEntries u).Pairwise (fun a b => b.utc < a.utc) := by
    intro u hnod
    have hs := sortEntries_sorted u
    have hmp : ((sortEntries u).map (fun e => e.utc)).Nodup :=
      ((sortEntries_perm u).map _).nodup_iff.mpr hnod
    have hne : (sortEntries u).Pairwise (fun a b => a.utc ≠ b.utc) := List.pairwise_map.mp hmp
    exact (hs.and hne).imp (fun hab => lt_of_le_of_ne hab.1 hab.2.symm)
  have hsorted_eq : sortEntries (unsortedEntries (toProto lt)) =
      sortEntries (unsortedEntries p) := by
    haveI : IsAntisymm LeapTableEntry (fun a b => b.utc < a.utc) :=
      ⟨fun a b h1 h2 => absurd h1 (not_lt.mpr (le_of_lt h2))⟩
    exact List.eq_of_perm_of_sorted
      ((sortEntries_perm _).trans (hperm_unsorted.trans (sortEntries_perm _).symm))
      (hstrict _ hnodup_unsorted2) (hstrict _ hnodup_unsorted)
  have hany_pos : ((toProto lt).positive_leaps.any
      (fun j => decide (j < kMinJdn) || decide (kMaxJdn < j))) = false := by
    rw [List.any_eq_false]
    intro j hj
    have hj2 : j ∈ p.positive_leaps := hpos.mem_iff.mp hj
    have hr := cs.2.2.2.1 j hj2
    simp only [Bool.or_eq_true, decide_eq_true_eq, not_or]
    omega
  have hany_neg : ((toProto lt).negative_leaps.any
      (fun j => decide (j < kMinJdn) || decide (kMaxJdn < j))) = false := by
    rw [List.any_eq_false]
    intro j hj
    have hj2 : j ∈ p.negative_leaps := hneg.mem_iff.mp hj
    have hr := cs.2.2.2.2.1 j hj2
    simp only [Bool.or_eq_true, decide_eq_true_eq, not_or]
    omega
  refine ⟨lt, ?_, by simp [leapTableEq]⟩
  unfold newLeapTableFromProto
  rw [hend]
  rw [if_neg (by
    have h1 := cs.1
    have h2 := cs.2.1
    omega : ¬(p.end_jdn < kMinJdn ∨ kMaxJdn < p.end_jdn))]
  rw [if_neg (by simpa using cs.2.2.1)]
  rw [if_neg (by simp [hany_pos])]
  rw [if_neg (by simp [hany_neg])]
  rw [hsorted_eq]
  exact cs.2.2.2.2.2

/-- Witness for C5: the round trip of the two-entry table with end_jdn
2441347. -/
theorem c5_witness :
    ∃ lt2, newLeapTableFromProto (toProto
      ⟨[⟨jdnToTime 2441348, taiModernUtcEpoch + (jdnToTime 2441348 - modernUtcEpoch), 0⟩,
        ⟨modernUtcEpoch, taiModernUtcEpoch, 0⟩]⟩) = some lt2 ∧
      leapTableEq lt2
        ⟨[⟨jdnToTime 2441348, taiModernUtcEpoch + (jdnToTime 2441348 - modernUtcEpoch), 0⟩,
          ⟨modernUtcEpoch, taiModernUtcEpoch, 0⟩]⟩ = true :=
  c5_serialization_round_trip ⟨[], [], 2441347⟩ _ evalTable_2441347


end Unsmear
